import Mathlib

/-!
Verification of the kv_3d_storage repository: order-homomorphic dimension and
point encodings, the 3d-ish zip-tree control model (construction, invariants,
counting summaries), and the kv-store child-lookup mapping.

Dimension values are `u8` in the source; they are embedded as `Nat` (with
explicit `< 256` bounds where the byte range matters). Byte buffers are
embedded as `List Nat`, and fallible/panicking code returns explicit result
types.
-/

namespace KV3d

/-! ## Definitions: the shallow embedding of the program -/

/-- Embeds `Point3d` from src/src/lib.rs, with all three dimension value types
instantiated at the `u8`-backed dimensions of the fuzz harness (values embedded
as `Nat`). -/
@[ext]
structure Point3d where
  x : Nat
  y : Nat
  z : Nat
deriving DecidableEq, Repr

/-- Embeds `Point3d::cmp_xyz`: compare by x, then y, then z. -/
def cmp_xyz (p q : Point3d) : Ordering :=
  match compare p.x q.x with
  | Ordering.eq =>
    match compare p.y q.y with
    | Ordering.eq => compare p.z q.z
    | yc => yc
  | xc => xc

/-- Embeds `Point3d::cmp_yzx`: compare by y, then z, then x. -/
def cmp_yzx (p q : Point3d) : Ordering :=
  match compare p.y q.y with
  | Ordering.eq =>
    match compare p.z q.z with
    | Ordering.eq => compare p.x q.x
    | zc => zc
  | yc => yc

/-- Embeds `Point3d::cmp_zxy`: compare by z, then x, then y. -/
def cmp_zxy (p q : Point3d) : Ordering :=
  match compare p.z q.z with
  | Ordering.eq =>
    match compare p.x q.x with
    | Ordering.eq => compare p.y q.y
    | xc => xc
  | zc => zc

/-- Embeds `cmp_points_at_rank` from src/fuzz/src/lib.rs: the ordering is
selected by `rank % 3` (2 ↦ xyz, 1 ↦ yzx, 0 ↦ zxy). -/
def cmp_points_at_rank (rank : Nat) (p q : Point3d) : Ordering :=
  if rank % 3 = 2 then cmp_xyz p q
  else if rank % 3 = 1 then cmp_yzx p q
  else cmp_zxy p q

/-- Embeds `U8FixedWidth::homomorphic_encode`: the single raw byte. -/
def fixed_homomorphic_encode (v : Nat) : List Nat := [v]

/-- Embeds `U8VariableWidth::homomorphic_encode`: `v` bytes `0x02` followed
by the terminator `0x01`. -/
def var_homomorphic_encode (v : Nat) : List Nat := List.replicate v 2 ++ [1]

/-- Result of a decode call: success with value and consumed length,
recoverable error (`Err` in the source), or a Rust panic (`crash`, raised by
out-of-bounds slice indexing). -/
inductive DecResult (α : Type) where
  | ok (val : α) (len : Nat)
  | err
  | crash
deriving DecidableEq, Repr

/-- Embeds `U8FixedWidth::homomorphic_decode`: empty input is a recoverable
error, otherwise the first byte is the value. -/
def fixed_homomorphic_decode (buf : List Nat) : DecResult Nat :=
  match buf with
  | [] => DecResult.err
  | b :: _ => DecResult.ok b 1

/-- Embeds the scanning loop of `U8VariableWidth::homomorphic_decode`:
`i` is the current index, the list argument is the remaining suffix
`buf[i..]`. Reading past the end of the buffer is a panic (`crash`); the
loop body first checks the bound `i >= 256` (recoverable error), then
accepts `0x02` and rejects any other byte. On the terminator `0x01` it
returns `Ok((i as u8, i + 1))`, embedded as `i % 256`. -/
def var_decode_go : List Nat → Nat → DecResult Nat
  | [], _ => DecResult.crash
  | b :: rest, i =>
    if b = 1 then DecResult.ok (i % 256) (i + 1)
    else if 256 ≤ i then DecResult.err
    else if b = 2 then var_decode_go rest (i + 1)
    else DecResult.err

/-- Embeds `U8VariableWidth::homomorphic_decode`. -/
def var_homomorphic_decode (buf : List Nat) : DecResult Nat :=
  var_decode_go buf 0

/-- Embeds the `Ord` instance on Rust byte slices (as used by
`byte_compare` in the spec): lexicographic, element-wise, with length as
the tie-breaker. -/
def byteCompare : List Nat → List Nat → Ordering
  | [], [] => Ordering.eq
  | [], _ :: _ => Ordering.lt
  | _ :: _, [] => Ordering.gt
  | a :: s, b :: t =>
    match compare a b with
    | Ordering.eq => byteCompare s t
    | c => c

/-- Encoding of one dimension value, selected by the axis kind (`true` =
`U8FixedWidth`, `false` = `U8VariableWidth`). -/
def dim_homomorphic_encode (k : Bool) (v : Nat) : List Nat :=
  if k then fixed_homomorphic_encode v else var_homomorphic_encode v

/-- The delimiter written after a non-last field: nothing for a fixed-width
dimension, `0x00 0x00` for a variable-width one. -/
def dim_delim (k : Bool) : List Nat :=
  if k then [] else [0, 0]

/-- Embeds `Point3d::encode_xyz` for the axis kinds `kx, ky, kz`. -/
def encode_xyz (kx ky kz : Bool) (p : Point3d) : List Nat :=
  dim_homomorphic_encode kx p.x ++ dim_delim kx ++
    dim_homomorphic_encode ky p.y ++ dim_delim ky ++
    dim_homomorphic_encode kz p.z

/-- Embeds `Point3d::encode_yzx` for the axis kinds `kx, ky, kz`. -/
def encode_yzx (kx ky kz : Bool) (p : Point3d) : List Nat :=
  dim_homomorphic_encode ky p.y ++ dim_delim ky ++
    dim_homomorphic_encode kz p.z ++ dim_delim kz ++
    dim_homomorphic_encode kx p.x

/-- Embeds `Point3d::encode_zxy` for the axis kinds `kx, ky, kz`. -/
def encode_zxy (kx ky kz : Bool) (p : Point3d) : List Nat :=
  dim_homomorphic_encode kz p.z ++ dim_delim kz ++
    dim_homomorphic_encode kx p.x ++ dim_delim kx ++
    dim_homomorphic_encode ky p.y

/-- Embeds the delimiter check `if buf[offset] != 0 || buf[offset + 1] != 0`
on the suffix `buf[offset..]`. Out-of-bounds indexing is a panic (`crash`);
Rust `||` short-circuits, so a nonzero first byte errs without reading the
second. -/
def delim_check : List Nat → DecResult Unit
  | [] => DecResult.crash
  | b :: rest =>
    if b ≠ 0 then DecResult.err
    else
      match rest with
      | [] => DecResult.crash
      | c :: _ => if c ≠ 0 then DecResult.err else DecResult.ok () 2

/-- Decoding of one dimension value, selected by the axis kind. -/
def dim_homomorphic_decode (k : Bool) (buf : List Nat) : DecResult Nat :=
  if k then fixed_homomorphic_decode buf else var_homomorphic_decode buf

/-- The shared three-field decoding skeleton of the `Point3d` decoders:
field kinds `ka, kb, kc` in this rotation's order; delimiters are demanded
after the first and second field exactly when their kind is variable-width. -/
def decode_fields (ka kb kc : Bool) (buf : List Nat) : DecResult (Nat × Nat × Nat) :=
  match dim_homomorphic_decode ka buf with
  | DecResult.err => DecResult.err
  | DecResult.crash => DecResult.crash
  | DecResult.ok a alen =>
    match (if ka then DecResult.ok () 0 else delim_check (List.drop alen buf)) with
    | DecResult.err => DecResult.err
    | DecResult.crash => DecResult.crash
    | DecResult.ok _ da =>
      match dim_homomorphic_decode kb (List.drop (alen + da) buf) with
      | DecResult.err => DecResult.err
      | DecResult.crash => DecResult.crash
      | DecResult.ok b blen =>
        match (if kb then DecResult.ok () 0
               else delim_check (List.drop (alen + da + blen) buf)) with
        | DecResult.err => DecResult.err
        | DecResult.crash => DecResult.crash
        | DecResult.ok _ db =>
          match dim_homomorphic_decode kc (List.drop (alen + da + blen + db) buf) with
          | DecResult.err => DecResult.err
          | DecResult.crash => DecResult.crash
          | DecResult.ok c clen =>
            DecResult.ok (a, b, c) (alen + da + blen + db + clen)

/-- Embeds `Point3d::decode_xyz` for the axis kinds `kx, ky, kz`. -/
def decode_xyz (kx ky kz : Bool) (buf : List Nat) : DecResult Point3d :=
  match decode_fields kx ky kz buf with
  | DecResult.ok (x, y, z) n => DecResult.ok ⟨x, y, z⟩ n
  | DecResult.err => DecResult.err
  | DecResult.crash => DecResult.crash

/-- Embeds `Point3d::decode_yzx` for the axis kinds `kx, ky, kz`. -/
def decode_yzx (kx ky kz : Bool) (buf : List Nat) : DecResult Point3d :=
  match decode_fields ky kz kx buf with
  | DecResult.ok (y, z, x) n => DecResult.ok ⟨x, y, z⟩ n
  | DecResult.err => DecResult.err
  | DecResult.crash => DecResult.crash

/-- Embeds `Point3d::decode_zxy` for the axis kinds `kx, ky, kz`. -/
def decode_zxy (kx ky kz : Bool) (buf : List Nat) : DecResult Point3d :=
  match decode_fields kz kx ky buf with
  | DecResult.ok (z, x, y) n => DecResult.ok ⟨x, y, z⟩ n
  | DecResult.err => DecResult.err
  | DecResult.crash => DecResult.crash

inductive ControlNode (V M : Type) where
  | empty
  | nonEmpty (key : Point3d) (rank : Nat) (left right : ControlNode V M)
      (value : V) (count : Nat) (summary : M)
deriving DecidableEq, Repr

namespace ControlNode

variable {V M : Type}

/-- Embeds `ControlNode::insert_no_balance`. Descends using each visited
vertex's own rank-selected ordering; `Ordering::Equal` is the duplicate
panic (`none`); after a successful recursive insert the vertex's `count` is
incremented and its summary recombined with the lift of the inserted pair. -/
def insert_no_balance (lift : Point3d × V → M) (combine : M → M → M) :
    ControlNode V M → Point3d → V → Nat → Option (ControlNode V M)
  | empty, p, v, r =>
    some (nonEmpty p r empty empty v 1 (lift (p, v)))
  | nonEmpty k pr l rt val c s, p, v, r =>
    match cmp_points_at_rank pr k p with
    | Ordering.eq => none
    | Ordering.lt =>
      (insert_no_balance lift combine rt p v r).map fun rt2 =>
        nonEmpty k pr l rt2 val (c + 1) (combine s (lift (p, v)))
    | Ordering.gt =>
      (insert_no_balance lift combine l p v r).map fun l2 =>
        nonEmpty k pr l2 rt val (c + 1) (combine s (lift (p, v)))

/-- Embeds the duplicate-removal pass of `ControlNode::from_iter`
(`sorted.retain(|t| uniques.insert(t.point))`): every processed point is
added to the seen-set, and an element is kept exactly when its point was
not seen before it. -/
def retain_unique (seen : List Point3d) :
    List (Point3d × V × Nat) → List (Point3d × V × Nat)
  | [] => []
  | t :: rest =>
    if t.1 ∈ seen then retain_unique (t.1 :: seen) rest
    else t :: retain_unique (t.1 :: seen) rest

/-- Embeds the sort comparator of `ControlNode::from_iter`: descending by
rank, ties broken ascending in the ordering selected by that shared rank. -/
def cmp_triples (t1 t2 : Point3d × V × Nat) : Ordering :=
  match compare t2.2.2 t1.2.2 with
  | Ordering.eq => cmp_points_at_rank t1.2.2 t1.1 t2.1
  | o => o

/-- The weak order used for sorting: `t1` may precede `t2` iff the
comparator does not say `Greater`. `Vec::sort_by` is a stable sort; on every
list `from_iter` actually sorts (points already deduplicated) the comparator
has no ties, so any sorted permutation — in particular insertion sort — is
extensionally the sort the source computes. -/
def le_triples (t1 t2 : Point3d × V × Nat) : Prop :=
  cmp_triples t1 t2 ≠ Ordering.gt

instance : DecidableRel (le_triples (V := V)) := fun t1 t2 =>
  inferInstanceAs (Decidable (cmp_triples t1 t2 ≠ Ordering.gt))

/-- Embeds `ControlNode::from_iter`: deduplicate points keeping first
occurrences, sort by `cmp_triples`, then insert each triple in order into
an initially empty tree. A `none` result is the (unreachable)
duplicate-point panic of `insert_no_balance`. -/
def from_iter (lift : Point3d × V → M) (combine : M → M → M)
    (l : List (Point3d × V × Nat)) : Option (ControlNode V M) :=
  (List.insertionSort le_triples (retain_unique [] l)).foldlM
    (fun t x => insert_no_balance lift combine t x.1 x.2.1 x.2.2) empty

/-- The (point, rank) pairs of all vertices of a tree. -/
def nodes : ControlNode V M → List (Point3d × Nat)
  | empty => []
  | nonEmpty k r l rt _ _ _ => (k, r) :: (nodes l ++ nodes rt)

/-- The rank of the root vertex, if any. -/
def rootRank : ControlNode V M → Option Nat
  | empty => none
  | nonEmpty _ r _ _ _ _ _ => some r

/-- The count field of the root vertex (0 for the empty tree). -/
def rootCount : ControlNode V M → Nat
  | empty => 0
  | nonEmpty _ _ _ _ _ c _ => c

/-- The summary field of the root vertex, if any. -/
def rootSummary : ControlNode V M → Option M
  | empty => none
  | nonEmpty _ _ _ _ _ _ s => some s

/-- The tree invariants of spec §3 (rules 1-3, 5 follows): left child rank
strictly below, right child rank at most the vertex rank, and the vertex's
own rank-selected ordering strictly separates all points of its left and
right subtrees from its key. -/
def Valid : ControlNode V M → Prop
  | empty => True
  | nonEmpty k r l rt _ _ _ =>
    Valid l ∧ Valid rt ∧
      (∀ lr, rootRank l = some lr → lr < r) ∧
      (∀ rr, rootRank rt = some rr → rr ≤ r) ∧
      (∀ q ∈ nodes l, cmp_points_at_rank r q.1 k = Ordering.lt) ∧
      (∀ q ∈ nodes rt, cmp_points_at_rank r k q.1 = Ordering.lt)

/-- Precondition under which one insertion is safe: the new rank is at most
every rank already in the tree, the new point sorts strictly after every
already-present point of equal rank (in that rank's ordering), and the new
point is absent. This is exactly what the descending-rank sort order of
`from_iter` guarantees for each successive insertion. -/
def InsReady (t : ControlNode V M) (p : Point3d) (r : Nat) : Prop :=
  ∀ q ∈ nodes t,
    r ≤ q.2 ∧ (r = q.2 → cmp_points_at_rank r q.1 p = Ordering.lt) ∧ q.1 ≠ p

/-- The pairwise relation that the sorted, deduplicated insertion sequence
satisfies: strictly descending rank or equal rank with strictly ascending
rank-selected point order, and distinct points throughout. -/
def insOrder (a b : Point3d × V × Nat) : Prop :=
  (b.2.2 < a.2.2 ∨
      (a.2.2 = b.2.2 ∧ cmp_points_at_rank a.2.2 a.1 b.1 = Ordering.lt)) ∧
    a.1 ≠ b.1

/-- The values returned by one verifier call in
`ControlNode::do_assert_tree_invariants`: min/max contained point under each
of the three orderings, plus the vertex's own rank (`none` throughout for
the empty tree). -/
structure TreeStats where
  minXyz : Option Point3d
  maxXyz : Option Point3d
  minYzx : Option Point3d
  maxYzx : Option Point3d
  minZxy : Option Point3d
  maxZxy : Option Point3d
  rnk : Option Nat
deriving DecidableEq, Repr

/-- One min-selection step of the verifier: replace `cur` by a child's
reported minimum when that compares `Less`. -/
def pickMin (cmp : Point3d → Point3d → Ordering) (o : Option Point3d)
    (cur : Point3d) : Point3d :=
  match o with
  | none => cur
  | some q => if cmp q cur = Ordering.lt then q else cur

/-- One max-selection step of the verifier. -/
def pickMax (cmp : Point3d → Point3d → Ordering) (o : Option Point3d)
    (cur : Point3d) : Point3d :=
  match o with
  | none => cur
  | some q => if cmp q cur = Ordering.gt then q else cur

/-- The verifier's `assert!(left_rank < rank)` (skipped for an empty left
subtree). -/
def rank_check_left (o : Option Nat) (r : Nat) : Bool :=
  match o with
  | none => true
  | some lr => decide (lr < r)

/-- The verifier's `assert!(right_rank <= rank)`. -/
def rank_check_right (o : Option Nat) (r : Nat) : Bool :=
  match o with
  | none => true
  | some rr => decide (rr ≤ r)

/-- The verifier's `assert_eq!(left_max.cmp(key), Less)`. -/
def sep_check_left (cmp : Point3d → Point3d → Ordering) (o : Option Point3d)
    (key : Point3d) : Bool :=
  match o with
  | none => true
  | some m => decide (cmp m key = Ordering.lt)

/-- The verifier's `assert_eq!(right_min.cmp(key), Greater)`. -/
def sep_check_right (cmp : Point3d → Point3d → Ordering) (o : Option Point3d)
    (key : Point3d) : Bool :=
  match o with
  | none => true
  | some m => decide (cmp m key = Ordering.gt)

/-- Embeds `ControlNode::do_assert_tree_invariants` (src/fuzz/src/lib.rs):
a failed assertion is `none`; on success the propagated min/max/rank info is
returned. The rank-selected separation checks mirror the source's
`rank % 3` dispatch (0 ↦ zxy, 1 ↦ yzx, otherwise xyz). -/
def do_assert_tree_invariants : ControlNode V M → Option TreeStats
  | empty => some ⟨none, none, none, none, none, none, none⟩
  | nonEmpty key r l rt _ _ _ =>
    match do_assert_tree_invariants l with
    | none => none
    | some li =>
      match do_assert_tree_invariants rt with
      | none => none
      | some ri =>
        let ordOk : Bool :=
          if r % 3 = 0 then
            sep_check_left cmp_zxy li.maxZxy key &&
              sep_check_right cmp_zxy ri.minZxy key
          else if r % 3 = 1 then
            sep_check_left cmp_yzx li.maxYzx key &&
              sep_check_right cmp_yzx ri.minYzx key
          else
            sep_check_left cmp_xyz li.maxXyz key &&
              sep_check_right cmp_xyz ri.minXyz key
        if rank_check_left li.rnk r && rank_check_right ri.rnk r && ordOk then
          some
            ⟨some (pickMin cmp_xyz ri.minXyz (pickMin cmp_xyz li.minXyz key)),
             some (pickMax cmp_xyz ri.maxXyz (pickMax cmp_xyz li.maxXyz key)),
             some (pickMin cmp_yzx ri.minYzx (pickMin cmp_yzx li.minYzx key)),
             some (pickMax cmp_yzx ri.maxYzx (pickMax cmp_yzx li.maxYzx key)),
             some (pickMin cmp_zxy ri.minZxy (pickMin cmp_zxy li.minZxy key)),
             some (pickMax cmp_zxy ri.maxZxy (pickMax cmp_zxy li.maxZxy key)),
             some r⟩
        else none

/-- Embeds `ControlNode::assert_tree_invariants`: the verifier accepts,
i.e. no assertion fails. -/
def tree_invariants_ok (t : ControlNode V M) : Prop :=
  (do_assert_tree_invariants t).isSome

instance (t : ControlNode V M) : Decidable (tree_invariants_ok t) :=
  inferInstanceAs (Decidable (do_assert_tree_invariants t).isSome)

/-- The points of all vertices of a tree. -/
def keysOf (t : ControlNode V M) : List Point3d :=
  (nodes t).map Prod.fst

/-- Embeds `lift` of the counting `LiftingCommutativeMonoid` instance for
`usize`: any value lifts to 1. -/
def usize_lift {V : Type} : Point3d × V → Nat := fun _ => 1

/-- Embeds `combine` of the counting instance: addition. -/
def usize_combine : Nat → Nat → Nat := fun a b => a + b

/-- Number of non-empty vertices of a tree. -/
def treeSize : ControlNode V M → Nat
  | empty => 0
  | nonEmpty _ _ l rt _ _ _ => 1 + treeSize l + treeSize rt

/-- The count field of the root (0 for the empty tree, matching the spec's
"count of the empty tree is 0"). -/
def countOf : ControlNode V M → Nat
  | empty => 0
  | nonEmpty _ _ _ _ _ c _ => c

/-- The summary field of the root for the counting monoid (0, the neutral
element, for the empty tree). -/
def summaryOf : ControlNode V Nat → Nat
  | empty => 0
  | nonEmpty _ _ _ _ _ _ s => s

/-- Counting correctness at every vertex: `count` is one more than the two
children's sizes and, for the counting monoid, `summary` equals `count`. -/
def counting_ok : ControlNode V Nat → Prop
  | empty => True
  | nonEmpty _ _ l rt _ c s =>
    c = 1 + treeSize l + treeSize rt ∧ s = c ∧ counting_ok l ∧ counting_ok rt

/-- `s` occurs as a subtree (rooted at some vertex, or the whole tree). -/
inductive SubtreeOf : ControlNode V M → ControlNode V M → Prop
  | refl (t : ControlNode V M) : SubtreeOf t t
  | inLeft {s : ControlNode V M} {k : Point3d} {r : Nat} {l rt : ControlNode V M}
      {v : V} {c : Nat} {sm : M} :
      SubtreeOf s l → SubtreeOf s (nonEmpty k r l rt v c sm)
  | inRight {s : ControlNode V M} {k : Point3d} {r : Nat} {l rt : ControlNode V M}
      {v : V} {c : Nat} {sm : M} :
      SubtreeOf s rt → SubtreeOf s (nonEmpty k r l rt v c sm)

end ControlNode

/-- Modelled from the spec: the rank-selected homomorphic point encoding of
kv_tree.rs — xyz when `r % 3 == 2`, yzx when `r % 3 == 1`, zxy when
`r % 3 == 0`. -/
def enc_at_rank (kx ky kz : Bool) (r : Nat) (p : Point3d) : List Nat :=
  if r % 3 = 2 then encode_xyz kx ky kz p
  else if r % 3 = 1 then encode_yzx kx ky kz p
  else encode_zxy kx ky kz p

/-- Modelled from the spec: the key of a vertex in the kv store — the rank
as a single byte, concatenated with the rank-selected encoding of the
point. -/
def kv_key (kx ky kz : Bool) (r : Nat) (p : Point3d) : List Nat :=
  r :: enc_at_rank kx ky kz r p

/-- Modelled from the spec: the keys a tree contributes to the kv store,
one entry per vertex. -/
def storeOf {V M : Type} (kx ky kz : Bool) (t : ControlNode V M) : List (List Nat) :=
  (ControlNode.nodes t).map (fun q => kv_key kx ky kz q.2 q.1)

/-- One step of the predecessor scan: keep the greatest key strictly below
the query seen so far. -/
def lt_step (q : List Nat) (acc : Option (List Nat)) (k : List Nat) :
    Option (List Nat) :=
  if byteCompare k q = Ordering.lt then
    match acc with
    | none => some k
    | some m => if byteCompare m k = Ordering.lt then some k else some m
  else acc

/-- Modelled from the spec: the store query for the greatest key strictly
less than `q` (the left-child lookup primitive of §4.5). -/
def find_lt (store : List (List Nat)) (q : List Nat) : Option (List Nat) :=
  store.foldl (lt_step q) none

/-- One step of the successor scan: keep the least key strictly above the
query seen so far. -/
def gt_step (q : List Nat) (acc : Option (List Nat)) (k : List Nat) :
    Option (List Nat) :=
  if byteCompare k q = Ordering.gt then
    match acc with
    | none => some k
    | some m => if byteCompare k m = Ordering.lt then some k else some m
  else acc

/-- Modelled from the spec: the store query for the least key strictly
greater than `q` (the right-child lookup primitive of §4.5). -/
def find_gt (store : List (List Nat)) (q : List Nat) : Option (List Nat) :=
  store.foldl (gt_step q) none

/-- Executable form of the §3 invariants `ControlNode.Valid`, used to check
concrete trees by evaluation. -/
def validb {V M : Type} : ControlNode V M → Bool
  | ControlNode.empty => true
  | ControlNode.nonEmpty k r l rt _ _ _ =>
    validb l && validb rt &&
      ControlNode.rank_check_left (ControlNode.rootRank l) r &&
      ControlNode.rank_check_right (ControlNode.rootRank rt) r &&
      (ControlNode.nodes l).all
        (fun q => cmp_points_at_rank r q.1 k = Ordering.lt) &&
      (ControlNode.nodes rt).all
        (fun q => cmp_points_at_rank r k q.1 = Ordering.lt)

/-- The value-summing monoid (`lift` projects the value, `combine` adds):
commutative, and sensitive to which triple of a duplicated point survives. -/
def sum_lift : Point3d × Nat → Nat := fun pv => pv.2

/-! ## Theorems -/

theorem cmp_xyz_eq_lt {p q : Point3d} :
    cmp_xyz p q = Ordering.lt ↔
      p.x < q.x ∨ (p.x = q.x ∧ (p.y < q.y ∨ (p.y = q.y ∧ p.z < q.z))) := by
  unfold cmp_xyz
  rcases hx : compare p.x q.x with _ | _ | _ <;>
    rcases hy : compare p.y q.y with _ | _ | _ <;>
    simp_all [Nat.compare_eq_lt, Nat.compare_eq_eq, Nat.compare_eq_gt] <;>
    omega

theorem cmp_xyz_eq_eq {p q : Point3d} :
    cmp_xyz p q = Ordering.eq ↔ p = q := by
  unfold cmp_xyz
  rcases hx : compare p.x q.x with _ | _ | _ <;>
    rcases hy : compare p.y q.y with _ | _ | _ <;>
    simp_all [Nat.compare_eq_lt, Nat.compare_eq_eq, Nat.compare_eq_gt,
      Point3d.ext_iff] <;> omega

theorem cmp_xyz_eq_gt {p q : Point3d} :
    cmp_xyz p q = Ordering.gt ↔ cmp_xyz q p = Ordering.lt := by
  unfold cmp_xyz
  rcases hx : compare p.x q.x with _ | _ | _ <;>
    rcases hx2 : compare q.x p.x with _ | _ | _ <;>
    rcases hy : compare p.y q.y with _ | _ | _ <;>
    rcases hy2 : compare q.y p.y with _ | _ | _ <;>
    simp_all [Nat.compare_eq_lt, Nat.compare_eq_eq, Nat.compare_eq_gt] <;>
    omega

theorem cmp_yzx_eq_lt {p q : Point3d} :
    cmp_yzx p q = Ordering.lt ↔
      p.y < q.y ∨ (p.y = q.y ∧ (p.z < q.z ∨ (p.z = q.z ∧ p.x < q.x))) := by
  unfold cmp_yzx
  rcases hy : compare p.y q.y with _ | _ | _ <;>
    rcases hz : compare p.z q.z with _ | _ | _ <;>
    simp_all [Nat.compare_eq_lt, Nat.compare_eq_eq, Nat.compare_eq_gt] <;>
    omega

theorem cmp_yzx_eq_eq {p q : Point3d} :
    cmp_yzx p q = Ordering.eq ↔ p = q := by
  unfold cmp_yzx
  rcases hy : compare p.y q.y with _ | _ | _ <;>
    rcases hz : compare p.z q.z with _ | _ | _ <;>
    simp_all [Nat.compare_eq_lt, Nat.compare_eq_eq, Nat.compare_eq_gt,
      Point3d.ext_iff] <;> omega

theorem cmp_yzx_eq_gt {p q : Point3d} :
    cmp_yzx p q = Ordering.gt ↔ cmp_yzx q p = Ordering.lt := by
  unfold cmp_yzx
  rcases hy : compare p.y q.y with _ | _ | _ <;>
    rcases hy2 : compare q.y p.y with _ | _ | _ <;>
    rcases hz : compare p.z q.z with _ | _ | _ <;>
    rcases hz2 : compare q.z p.z with _ | _ | _ <;>
    simp_all [Nat.compare_eq_lt, Nat.compare_eq_eq, Nat.compare_eq_gt] <;>
    omega

theorem cmp_zxy_eq_lt {p q : Point3d} :
    cmp_zxy p q = Ordering.lt ↔
      p.z < q.z ∨ (p.z = q.z ∧ (p.x < q.x ∨ (p.x = q.x ∧ p.y < q.y))) := by
  unfold cmp_zxy
  rcases hz : compare p.z q.z with _ | _ | _ <;>
    rcases hx : compare p.x q.x with _ | _ | _ <;>
    simp_all [Nat.compare_eq_lt, Nat.compare_eq_eq, Nat.compare_eq_gt] <;>
    omega

theorem cmp_zxy_eq_eq {p q : Point3d} :
    cmp_zxy p q = Ordering.eq ↔ p = q := by
  unfold cmp_zxy
  rcases hz : compare p.z q.z with _ | _ | _ <;>
    rcases hx : compare p.x q.x with _ | _ | _ <;>
    simp_all [Nat.compare_eq_lt, Nat.compare_eq_eq, Nat.compare_eq_gt,
      Point3d.ext_iff] <;> omega

theorem cmp_zxy_eq_gt {p q : Point3d} :
    cmp_zxy p q = Ordering.gt ↔ cmp_zxy q p = Ordering.lt := by
  unfold cmp_zxy
  rcases hz : compare p.z q.z with _ | _ | _ <;>
    rcases hz2 : compare q.z p.z with _ | _ | _ <;>
    rcases hx : compare p.x q.x with _ | _ | _ <;>
    rcases hx2 : compare q.x p.x with _ | _ | _ <;>
    simp_all [Nat.compare_eq_lt, Nat.compare_eq_eq, Nat.compare_eq_gt] <;>
    omega

theorem cmp_rank_eq_eq {r : Nat} {p q : Point3d} :
    cmp_points_at_rank r p q = Ordering.eq ↔ p = q := by
  unfold cmp_points_at_rank
  split
  · exact cmp_xyz_eq_eq
  · split
    · exact cmp_yzx_eq_eq
    · exact cmp_zxy_eq_eq

theorem cmp_rank_eq_gt {r : Nat} {p q : Point3d} :
    cmp_points_at_rank r p q = Ordering.gt ↔
      cmp_points_at_rank r q p = Ordering.lt := by
  unfold cmp_points_at_rank
  split
  · exact cmp_xyz_eq_gt
  · split
    · exact cmp_yzx_eq_gt
    · exact cmp_zxy_eq_gt

theorem cmp_xyz_lt_trans {p q s : Point3d}
    (h1 : cmp_xyz p q = Ordering.lt) (h2 : cmp_xyz q s = Ordering.lt) :
    cmp_xyz p s = Ordering.lt := by
  rw [cmp_xyz_eq_lt] at h1 h2 ⊢
  omega

theorem cmp_yzx_lt_trans {p q s : Point3d}
    (h1 : cmp_yzx p q = Ordering.lt) (h2 : cmp_yzx q s = Ordering.lt) :
    cmp_yzx p s = Ordering.lt := by
  rw [cmp_yzx_eq_lt] at h1 h2 ⊢
  omega

theorem cmp_zxy_lt_trans {p q s : Point3d}
    (h1 : cmp_zxy p q = Ordering.lt) (h2 : cmp_zxy q s = Ordering.lt) :
    cmp_zxy p s = Ordering.lt := by
  rw [cmp_zxy_eq_lt] at h1 h2 ⊢
  omega

theorem cmp_rank_lt_trans {r : Nat} {p q s : Point3d}
    (h1 : cmp_points_at_rank r p q = Ordering.lt)
    (h2 : cmp_points_at_rank r q s = Ordering.lt) :
    cmp_points_at_rank r p s = Ordering.lt := by
  unfold cmp_points_at_rank at h1 h2 ⊢
  split at h1 <;> split at h2 <;> simp_all
  · exact cmp_xyz_lt_trans h1 h2
  · split at h1 <;> split at h2 <;> simp_all
    · exact cmp_yzx_lt_trans h1 h2
    · exact cmp_zxy_lt_trans h1 h2

theorem cmp_rank_refl {r : Nat} {p : Point3d} :
    cmp_points_at_rank r p p = Ordering.eq :=
  cmp_rank_eq_eq.mpr rfl

theorem cmp_rank_lt_or_gt_of_ne {r : Nat} {p q : Point3d} (h : p ≠ q) :
    cmp_points_at_rank r p q = Ordering.lt ∨
      cmp_points_at_rank r p q = Ordering.gt := by
  rcases hc : cmp_points_at_rank r p q with _ | _ | _
  · exact Or.inl rfl
  · exact absurd (cmp_rank_eq_eq.mp hc) h
  · exact Or.inr rfl

theorem byteCompare_cons {a b : Nat} {s t : List Nat} :
    byteCompare (a :: s) (b :: t) = (compare a b).then (byteCompare s t) := by
  rcases h : compare a b with _ | _ | _ <;> simp [byteCompare, h, Ordering.then]

theorem ordering_then_eq_right {o : Ordering} : o.then Ordering.eq = o := by
  cases o <;> rfl

theorem nat_compare_self {a : Nat} : compare a a = Ordering.eq :=
  Nat.compare_eq_eq.mpr rfl

theorem byteCompare_refl {s : List Nat} : byteCompare s s = Ordering.eq := by
  induction s with
  | nil => rfl
  | cons a s ih => simp [byteCompare_cons, ih, nat_compare_self, Ordering.then]

theorem byteCompare_eq_eq {s t : List Nat} :
    byteCompare s t = Ordering.eq ↔ s = t := by
  constructor
  · intro h
    induction s generalizing t with
    | nil => cases t with
      | nil => rfl
      | cons b t => simp [byteCompare] at h
    | cons a s ih =>
      cases t with
      | nil => simp [byteCompare] at h
      | cons b t =>
        rw [byteCompare_cons] at h
        rcases hc : compare a b with _ | _ | _ <;> rw [hc] at h <;>
          simp [Ordering.then] at h
        rw [Nat.compare_eq_eq] at hc
        rw [hc, ih h]
  · rintro rfl
    exact byteCompare_refl

theorem byteCompare_swap {s t : List Nat} :
    byteCompare t s = (byteCompare s t).swap := by
  induction s generalizing t with
  | nil => cases t <;> rfl
  | cons a s ih =>
    cases t with
    | nil => rfl
    | cons b t =>
      rw [byteCompare_cons, byteCompare_cons, ← Nat.compare_swap, ih]
      rcases compare a b with _ | _ | _ <;> rcases byteCompare s t with _ | _ | _ <;> rfl

theorem byteCompare_lt_trans {s t u : List Nat}
    (h1 : byteCompare s t = Ordering.lt) (h2 : byteCompare t u = Ordering.lt) :
    byteCompare s u = Ordering.lt := by
  induction s generalizing t u with
  | nil =>
    cases u with
    | nil =>
      cases t with
      | nil => exact h2
      | cons b t => simp [byteCompare] at h2
    | cons c u => rfl
  | cons a s ih =>
    cases t with
    | nil => simp [byteCompare] at h1
    | cons b t =>
      cases u with
      | nil => simp [byteCompare] at h2
      | cons c u =>
        rw [byteCompare_cons] at h1 h2 ⊢
        rcases hab : compare a b with _ | _ | _ <;> rw [hab] at h1 <;>
          rcases hbc : compare b c with _ | _ | _ <;> rw [hbc] at h2 <;>
          simp [Ordering.then] at h1 h2
        · have hac : compare a c = Ordering.lt :=
            Nat.compare_eq_lt.mpr
              (Nat.lt_trans (Nat.compare_eq_lt.mp hab) (Nat.compare_eq_lt.mp hbc))
          rw [hac]; rfl
        · have hac : compare a c = Ordering.lt := by
            rw [← Nat.compare_eq_eq.mp hbc]; exact hab
          rw [hac]; rfl
        · have hac : compare a c = Ordering.lt := by
            rw [Nat.compare_eq_eq.mp hab]; exact hbc
          rw [hac]; rfl
        · have hac : compare a c = Ordering.eq :=
            Nat.compare_eq_eq.mpr ((Nat.compare_eq_eq.mp hab).trans (Nat.compare_eq_eq.mp hbc))
          rw [hac]
          simpa [Ordering.then] using ih h1 h2

/-- Stripping a shared leading delimiter (or any shared prefix bytes). -/
theorem byteCompare_append_same {d s t : List Nat} :
    byteCompare (d ++ s) (d ++ t) = byteCompare s t := by
  induction d with
  | nil => rfl
  | cons a d ih => simp [byteCompare_cons, ih, nat_compare_self, Ordering.then]

/-- The core composition law for the fixed-width dimension encoding: a
leading encoded field compares first, any suffixes compare after. -/
theorem fixed_encode_append_cmp {v w : Nat} {s t : List Nat} :
    byteCompare (fixed_homomorphic_encode v ++ s) (fixed_homomorphic_encode w ++ t) =
      (compare v w).then (byteCompare s t) := by
  simp [fixed_homomorphic_encode, byteCompare_cons]

/-- The core composition law for the variable-width dimension encoding. -/
theorem var_encode_append_cmp {v w : Nat} {s t : List Nat} :
    byteCompare (var_homomorphic_encode v ++ s) (var_homomorphic_encode w ++ t) =
      (compare v w).then (byteCompare s t) := by
  induction v generalizing w with
  | zero =>
    cases w with
    | zero => simp [var_homomorphic_encode, byteCompare_cons, nat_compare_self, Ordering.then]
    | succ w =>
      have h01 : compare 0 (w + 1) = Ordering.lt := Nat.compare_eq_lt.mpr (Nat.succ_pos w)
      simp [var_homomorphic_encode, List.replicate_succ, byteCompare_cons, h01,
        show compare 1 2 = Ordering.lt from rfl, Ordering.then]
  | succ v ih =>
    cases w with
    | zero =>
      have h10 : compare (v + 1) 0 = Ordering.gt := Nat.compare_eq_gt.mpr (Nat.succ_pos v)
      simp [var_homomorphic_encode, List.replicate_succ, byteCompare_cons, h10,
        show compare 2 1 = Ordering.gt from rfl, Ordering.then]
    | succ w =>
      have hsucc : compare (v + 1) (w + 1) = compare v w := by
        rcases h : compare v w with _ | _ | _
        · exact Nat.compare_eq_lt.mpr (Nat.succ_lt_succ (Nat.compare_eq_lt.mp h))
        · exact Nat.compare_eq_eq.mpr (congrArg Nat.succ (Nat.compare_eq_eq.mp h))
        · exact Nat.compare_eq_gt.mpr (Nat.succ_lt_succ (Nat.compare_eq_gt.mp h))
      have := ih (w := w)
      simpa [var_homomorphic_encode, List.replicate_succ, byteCompare_cons,
        nat_compare_self, Ordering.then, hsucc] using this

theorem dim_encode_append_cmp {k : Bool} {v w : Nat} {s t : List Nat} :
    byteCompare (dim_homomorphic_encode k v ++ s) (dim_homomorphic_encode k w ++ t) =
      (compare v w).then (byteCompare s t) := by
  cases k
  · exact var_encode_append_cmp
  · exact fixed_encode_append_cmp

theorem dim_encode_cmp {k : Bool} {v w : Nat} :
    byteCompare (dim_homomorphic_encode k v) (dim_homomorphic_encode k w) =
      compare v w := by
  have h := dim_encode_append_cmp (k := k) (v := v) (w := w) (s := []) (t := [])
  simpa [byteCompare, ordering_then_eq_right] using h

theorem cmp_xyz_then {p q : Point3d} :
    cmp_xyz p q =
      (compare p.x q.x).then ((compare p.y q.y).then (compare p.z q.z)) := by
  rcases hx : compare p.x q.x with _ | _ | _ <;>
    rcases hy : compare p.y q.y with _ | _ | _ <;>
    simp [cmp_xyz, hx, hy, Ordering.then]

theorem cmp_yzx_then {p q : Point3d} :
    cmp_yzx p q =
      (compare p.y q.y).then ((compare p.z q.z).then (compare p.x q.x)) := by
  rcases hy : compare p.y q.y with _ | _ | _ <;>
    rcases hz : compare p.z q.z with _ | _ | _ <;>
    simp [cmp_yzx, hy, hz, Ordering.then]

theorem cmp_zxy_then {p q : Point3d} :
    cmp_zxy p q =
      (compare p.z q.z).then ((compare p.x q.x).then (compare p.y q.y)) := by
  rcases hz : compare p.z q.z with _ | _ | _ <;>
    rcases hx : compare p.x q.x with _ | _ | _ <;>
    simp [cmp_zxy, hz, hx, Ordering.then]

/-- Generic homomorphism for one rotation: comparing the concatenated
encodings of three fields (with delimiters) is the `.then`-chain of the
three field comparisons. -/
theorem encode_rotation_hom {ka kb kc : Bool} {a1 b1 c1 a2 b2 c2 : Nat} :
    byteCompare
        (dim_homomorphic_encode ka a1 ++ dim_delim ka ++
          dim_homomorphic_encode kb b1 ++ dim_delim kb ++
          dim_homomorphic_encode kc c1)
        (dim_homomorphic_encode ka a2 ++ dim_delim ka ++
          dim_homomorphic_encode kb b2 ++ dim_delim kb ++
          dim_homomorphic_encode kc c2) =
      (compare a1 a2).then ((compare b1 b2).then (compare c1 c2)) := by
  simp only [List.append_assoc]
  rw [dim_encode_append_cmp, byteCompare_append_same, dim_encode_append_cmp,
    byteCompare_append_same, dim_encode_cmp]

/-- Homomorphism of the xyz point encoding (all axis-kind mixtures). -/
theorem encode_xyz_hom {kx ky kz : Bool} {p q : Point3d} :
    byteCompare (encode_xyz kx ky kz p) (encode_xyz kx ky kz q) = cmp_xyz p q := by
  rw [cmp_xyz_then]
  exact encode_rotation_hom

/-- Homomorphism of the yzx point encoding (all axis-kind mixtures). -/
theorem encode_yzx_hom {kx ky kz : Bool} {p q : Point3d} :
    byteCompare (encode_yzx kx ky kz p) (encode_yzx kx ky kz q) = cmp_yzx p q := by
  rw [cmp_yzx_then]
  exact encode_rotation_hom

/-- Homomorphism of the zxy point encoding (all axis-kind mixtures). -/
theorem encode_zxy_hom {kx ky kz : Bool} {p q : Point3d} :
    byteCompare (encode_zxy kx ky kz p) (encode_zxy kx ky kz q) = cmp_zxy p q := by
  rw [cmp_zxy_then]
  exact encode_rotation_hom

theorem var_decode_go_spec (rest : List Nat) :
    ∀ (n i : Nat), i + n ≤ 256 →
      var_decode_go (List.replicate n 2 ++ 1 :: rest) i =
        DecResult.ok ((i + n) % 256) (i + n + 1) := by
  intro n
  induction n with
  | zero => intro i h; simp [var_decode_go]
  | succ n ih =>
    intro i h
    have hlt : ¬ 256 ≤ i := by omega
    have hrec := ih (i + 1) (by omega)
    have harith : i + 1 + n = i + (n + 1) := by omega
    rw [harith] at hrec
    simpa [List.replicate_succ, var_decode_go, hlt] using hrec

theorem var_decode_front {v : Nat} (h : v ≤ 255) (rest : List Nat) :
    var_homomorphic_decode (var_homomorphic_encode v ++ rest) =
      DecResult.ok v (v + 1) := by
  have hs := var_decode_go_spec rest v 0 (by omega)
  simpa [var_homomorphic_decode, var_homomorphic_encode, List.append_assoc,
    Nat.mod_eq_of_lt (show v < 256 by omega)] using hs

theorem dim_decode_front {k : Bool} {v : Nat} (h : v ≤ 255) (rest : List Nat) :
    dim_homomorphic_decode k (dim_homomorphic_encode k v ++ rest) =
      DecResult.ok v (dim_homomorphic_encode k v).length := by
  cases k
  · simpa [dim_homomorphic_decode, dim_homomorphic_encode,
      var_homomorphic_encode] using var_decode_front h rest
  · simp [dim_homomorphic_decode, dim_homomorphic_encode,
      fixed_homomorphic_encode, fixed_homomorphic_decode]

theorem delim_step {k : Bool} {rest : List Nat} :
    (if k then DecResult.ok () 0 else delim_check (dim_delim k ++ rest)) =
      DecResult.ok () (dim_delim k).length := by
  cases k <;> simp [dim_delim, delim_check]

theorem drop_len_append2 {a b r : List Nat} :
    List.drop (a.length + b.length) (a ++ (b ++ r)) = r := by
  rw [← List.append_assoc, ← List.length_append, List.drop_left]

theorem drop_len_append3 {a b c r : List Nat} :
    List.drop (a.length + b.length + c.length) (a ++ (b ++ (c ++ r))) = r := by
  rw [← List.append_assoc, ← List.append_assoc, ← List.length_append,
    ← List.length_append, List.drop_left]

theorem drop_len_append4 {a b c d r : List Nat} :
    List.drop (a.length + b.length + c.length + d.length)
      (a ++ (b ++ (c ++ (d ++ r)))) = r := by
  rw [← List.append_assoc, ← List.append_assoc, ← List.append_assoc,
    ← List.length_append, ← List.length_append, ← List.length_append,
    List.drop_left]

theorem decode_fields_round {ka kb kc : Bool} {a b c : Nat}
    (ha : a ≤ 255) (hb : b ≤ 255) (hc : c ≤ 255) :
    decode_fields ka kb kc
        (dim_homomorphic_encode ka a ++ dim_delim ka ++
          dim_homomorphic_encode kb b ++ dim_delim kb ++
          dim_homomorphic_encode kc c) =
      DecResult.ok (a, b, c)
        (dim_homomorphic_encode ka a ++ dim_delim ka ++
          dim_homomorphic_encode kb b ++ dim_delim kb ++
          dim_homomorphic_encode kc c).length := by
  have hwhole : dim_homomorphic_decode kc (dim_homomorphic_encode kc c) =
      DecResult.ok c (dim_homomorphic_encode kc c).length := by
    have h := dim_decode_front (k := kc) hc []
    simpa using h
  simp only [List.append_assoc]
  rw [decode_fields.eq_def]
  simp only [dim_decode_front ha, List.drop_left, delim_step, drop_len_append2,
    dim_decode_front hb, drop_len_append3, drop_len_append4, hwhole]
  simp [List.length_append]
  omega

theorem decode_xyz_round {kx ky kz : Bool} {p : Point3d}
    (hx : p.x ≤ 255) (hy : p.y ≤ 255) (hz : p.z ≤ 255) :
    decode_xyz kx ky kz (encode_xyz kx ky kz p) =
      DecResult.ok p (encode_xyz kx ky kz p).length := by
  simp only [decode_xyz, encode_xyz, decode_fields_round hx hy hz]

theorem decode_yzx_round {kx ky kz : Bool} {p : Point3d}
    (hx : p.x ≤ 255) (hy : p.y ≤ 255) (hz : p.z ≤ 255) :
    decode_yzx kx ky kz (encode_yzx kx ky kz p) =
      DecResult.ok p (encode_yzx kx ky kz p).length := by
  simp only [decode_yzx, encode_yzx, decode_fields_round hy hz hx]

theorem decode_zxy_round {kx ky kz : Bool} {p : Point3d}
    (hx : p.x ≤ 255) (hy : p.y ≤ 255) (hz : p.z ≤ 255) :
    decode_zxy kx ky kz (encode_zxy kx ky kz p) =
      DecResult.ok p (encode_zxy kx ky kz p).length := by
  simp only [decode_zxy, encode_zxy, decode_fields_round hz hx hy]

namespace ControlNode

variable {V M : Type}

theorem insert_ok (lift : Point3d × V → M) (combine : M → M → M) :
    ∀ {t : ControlNode V M} {p : Point3d} {v : V} {r : Nat},
      Valid t → InsReady t p r →
      ∃ t2, insert_no_balance lift combine t p v r = some t2 ∧
        Valid t2 ∧
        rootRank t2 = some ((rootRank t).getD r) ∧
        (∀ q, q ∈ nodes t2 ↔ q = (p, r) ∨ q ∈ nodes t) := by
  intro t
  induction t with
  | empty =>
    intro p v r _ _
    refine ⟨nonEmpty p r empty empty v 1 (lift (p, v)), rfl, ?_, rfl, ?_⟩
    · exact ⟨trivial, trivial, by simp [rootRank], by simp [rootRank],
        by simp [nodes], by simp [nodes]⟩
    · intro q
      simp [nodes, rootRank]
  | nonEmpty k pr l rt val c s ihl ihr =>
    intro p v r hval hready
    obtain ⟨hvl, hvr, hlrank, hrrank, hlsep, hrsep⟩ := hval
    have hh1 : r ≤ pr := (hready (k, pr) (by simp [nodes])).1
    have hh2 : r = pr → cmp_points_at_rank r k p = Ordering.lt :=
      (hready (k, pr) (by simp [nodes])).2.1
    have hh3 : k ≠ p := (hready (k, pr) (by simp [nodes])).2.2
    rcases hcmp : cmp_points_at_rank pr k p with _ | _ | _
    · -- Less: the new point descends right
      have hreadyr : InsReady rt p r := fun q hq =>
        hready q (by simp [nodes]; exact Or.inr (Or.inr hq))
      obtain ⟨rt2, hins, hv2, hroot2, hmem2⟩ := ihr hvr hreadyr (v := v)
      refine ⟨nonEmpty k pr l rt2 val (c + 1) (combine s (lift (p, v))), ?_, ?_, ?_, ?_⟩
      · simp [insert_no_balance, hcmp, hins]
      · refine ⟨hvl, hv2, hlrank, ?_, hlsep, ?_⟩
        · intro rr hrr
          rw [hroot2] at hrr
          cases hro : rootRank rt with
          | none =>
            rw [hro] at hrr
            simp only [Option.getD_none, Option.some.injEq] at hrr
            subst hrr
            exact hh1
          | some rr0 =>
            rw [hro] at hrr
            simp only [Option.getD_some, Option.some.injEq] at hrr
            subst hrr
            exact hrrank rr0 hro
        · intro q hq
          rcases (hmem2 q).mp hq with h1 | h2
          · subst h1
            exact hcmp
          · exact hrsep q h2
      · simp [rootRank]
      · intro q
        simp only [nodes, List.mem_cons, List.mem_append]
        rw [hmem2 q]
        tauto
    · -- Equal: duplicate point, contradicts InsReady
      exact absurd (cmp_rank_eq_eq.mp hcmp) hh3
    · -- Greater: the new point descends left
      have hreadyl : InsReady l p r := fun q hq =>
        hready q (by simp [nodes]; exact Or.inr (Or.inl hq))
      obtain ⟨l2, hins, hv2, hroot2, hmem2⟩ := ihl hvl hreadyl (v := v)
      refine ⟨nonEmpty k pr l2 rt val (c + 1) (combine s (lift (p, v))), ?_, ?_, ?_, ?_⟩
      · simp [insert_no_balance, hcmp, hins]
      · refine ⟨hv2, hvr, ?_, hrrank, ?_, hrsep⟩
        · intro lr hlr
          rw [hroot2] at hlr
          cases hro : rootRank l with
          | none =>
            rw [hro] at hlr
            simp only [Option.getD_none, Option.some.injEq] at hlr
            subst hlr
            rcases Nat.lt_or_ge r pr with h | h
            · exact h
            · have heq : r = pr := Nat.le_antisymm hh1 h
              have hlt : cmp_points_at_rank pr k p = Ordering.lt := heq ▸ hh2 heq
              simp [hlt] at hcmp
          | some lr0 =>
            rw [hro] at hlr
            simp only [Option.getD_some, Option.some.injEq] at hlr
            subst hlr
            exact hlrank lr0 hro
        · intro q hq
          rcases (hmem2 q).mp hq with h1 | h2
          · subst h1
            exact cmp_rank_eq_gt.mp hcmp
          · exact hlsep q h2
      · simp [rootRank]
      · intro q
        simp only [nodes, List.mem_cons, List.mem_append]
        rw [hmem2 q]
        tauto

/-- Swapping the arguments of a rank-selected point comparison swaps the
resulting `Ordering`. -/
theorem cmp_rank_swap {r : Nat} {p q : Point3d} :
    cmp_points_at_rank r q p = (cmp_points_at_rank r p q).swap := by
  rcases h : cmp_points_at_rank r p q with _ | _ | _
  · exact cmp_rank_eq_gt.mpr h
  · rw [cmp_rank_eq_eq.mp h]
    exact cmp_rank_refl
  · exact cmp_rank_eq_gt.mp h

theorem cmp_rank_le_trans {r : Nat} {p q s : Point3d}
    (h1 : cmp_points_at_rank r p q ≠ Ordering.gt)
    (h2 : cmp_points_at_rank r q s ≠ Ordering.gt) :
    cmp_points_at_rank r p s ≠ Ordering.gt := by
  rcases hc1 : cmp_points_at_rank r p q with _ | _ | _
  · rcases hc2 : cmp_points_at_rank r q s with _ | _ | _
    · rw [cmp_rank_lt_trans hc1 hc2]
      intro h
      cases h
    · rw [← cmp_rank_eq_eq.mp hc2, hc1]
      intro h
      cases h
    · exact absurd hc2 h2
  · rw [cmp_rank_eq_eq.mp hc1]
    exact h2
  · exact absurd hc1 h1

theorem cmp_triples_swap {a b : Point3d × V × Nat} :
    cmp_triples (V := V) b a = (cmp_triples a b).swap := by
  unfold cmp_triples
  rcases h : compare b.2.2 a.2.2 with _ | _ | _
  · rw [Nat.compare_eq_gt.mpr (Nat.compare_eq_lt.mp h)]
    rfl
  · rw [Nat.compare_eq_eq.mpr (Nat.compare_eq_eq.mp h).symm]
    rw [(Nat.compare_eq_eq.mp h : b.2.2 = a.2.2)]
    exact cmp_rank_swap
  · rw [Nat.compare_eq_lt.mpr (Nat.compare_eq_gt.mp h)]
    rfl

theorem le_triples_iff {a b : Point3d × V × Nat} :
    le_triples a b ↔
      b.2.2 < a.2.2 ∨
        (a.2.2 = b.2.2 ∧ cmp_points_at_rank a.2.2 a.1 b.1 ≠ Ordering.gt) := by
  unfold le_triples cmp_triples
  rcases h : compare b.2.2 a.2.2 with _ | _ | _
  · have := Nat.compare_eq_lt.mp h
    simp only [ne_eq]
    constructor
    · intro _; exact Or.inl this
    · intro _ hgt; cases hgt
  · have heq := Nat.compare_eq_eq.mp h
    constructor
    · intro hle
      exact Or.inr ⟨heq.symm, hle⟩
    · rintro (hlt | ⟨_, hc⟩)
      · omega
      · exact hc
  · have := Nat.compare_eq_gt.mp h
    constructor
    · intro hle; exact absurd rfl hle
    · rintro (hlt | ⟨heq, _⟩) <;> omega

theorem le_triples_total : IsTotal (Point3d × V × Nat) (le_triples (V := V)) := by
  constructor
  intro a b
  by_cases h : cmp_triples a b = Ordering.gt
  · right
    unfold le_triples
    rw [cmp_triples_swap, h]
    intro hc
    cases hc
  · exact Or.inl h

theorem le_triples_trans : IsTrans (Point3d × V × Nat) (le_triples (V := V)) := by
  constructor
  intro a b c hab hbc
  rw [le_triples_iff] at hab hbc ⊢
  rcases hab with h1 | ⟨h1e, h1c⟩
  · rcases hbc with h2 | ⟨h2e, _⟩
    · exact Or.inl (by omega)
    · exact Or.inl (by omega)
  · rcases hbc with h2 | ⟨h2e, h2c⟩
    · exact Or.inl (by omega)
    · refine Or.inr ⟨by omega, ?_⟩
      have h2c2 : cmp_points_at_rank a.2.2 b.1 c.1 ≠ Ordering.gt := by
        rw [h1e]; exact h2c
      exact cmp_rank_le_trans h1c h2c2

theorem insOrder_of_le_of_ne {a b : Point3d × V × Nat}
    (hle : le_triples a b) (hne : a.1 ≠ b.1) : insOrder a b := by
  rw [le_triples_iff] at hle
  refine ⟨?_, hne⟩
  rcases hle with h | ⟨he, hc⟩
  · exact Or.inl h
  · refine Or.inr ⟨he, ?_⟩
    rcases cmp_rank_lt_or_gt_of_ne (r := a.2.2) hne with h | h
    · exact h
    · exact absurd h hc

theorem fold_insert_ok (lift : Point3d × V → M) (combine : M → M → M) :
    ∀ (l : List (Point3d × V × Nat)) (t : ControlNode V M),
      Valid t →
      (∀ x ∈ l, InsReady t x.1 x.2.2) →
      List.Pairwise insOrder l →
      ∃ t2,
        l.foldlM (fun t x => insert_no_balance lift combine t x.1 x.2.1 x.2.2) t =
            some t2 ∧
          Valid t2 ∧
          (∀ q, q ∈ nodes t2 ↔ q ∈ nodes t ∨ ∃ x ∈ l, q = (x.1, x.2.2)) := by
  intro l
  induction l with
  | nil =>
    intro t hv _ _
    exact ⟨t, rfl, hv, by simp⟩
  | cons a l ih =>
    intro t hv hready hpw
    obtain ⟨t1, hins, hv1, _, hmem1⟩ :=
      insert_ok lift combine hv (hready a (by simp)) (v := a.2.1)
    obtain ⟨hpa, hpl⟩ := List.pairwise_cons.mp hpw
    have hready1 : ∀ x ∈ l, InsReady t1 x.1 x.2.2 := by
      intro x hx q hq
      rcases (hmem1 q).mp hq with h1 | h2
      · subst h1
        have hio := hpa x hx
        refine ⟨?_, ?_, ?_⟩
        · show x.2.2 ≤ a.2.2
          rcases hio.1 with h | ⟨h, _⟩ <;> omega
        · show x.2.2 = a.2.2 → cmp_points_at_rank x.2.2 a.1 x.1 = Ordering.lt
          intro heq
          rcases hio.1 with h | ⟨_, hc⟩
          · exfalso; omega
          · rw [heq]; exact hc
        · show a.1 ≠ x.1
          exact hio.2
      · exact hready x (List.mem_cons_of_mem a hx) q h2
    obtain ⟨t2, hfold, hv2, hmem2⟩ := ih t1 hv1 hready1 hpl
    refine ⟨t2, ?_, hv2, ?_⟩
    · simpa [List.foldlM_cons, hins] using hfold
    · intro q
      rw [hmem2 q, hmem1 q]
      simp only [List.mem_cons]
      constructor
      · rintro ((h | h) | ⟨x, hx, hq⟩)
        · exact Or.inr ⟨a, Or.inl rfl, h⟩
        · exact Or.inl h
        · exact Or.inr ⟨x, Or.inr hx, hq⟩
      · rintro (h | ⟨x, hx | hx, hq⟩)
        · exact Or.inl (Or.inr h)
        · subst hx; exact Or.inl (Or.inl hq)
        · exact Or.inr ⟨x, hx, hq⟩

/-- Everything `retain_unique` keeps is from the input and its point was not
previously seen; the kept elements have pairwise distinct points. -/
theorem retain_unique_spec :
    ∀ (l : List (Point3d × V × Nat)) (seen : List Point3d),
      (∀ x ∈ retain_unique seen l, x ∈ l ∧ x.1 ∉ seen) ∧
        List.Pairwise (fun a b => a.1 ≠ b.1) (retain_unique seen l) := by
  intro l
  induction l with
  | nil => intro seen; simp [retain_unique]
  | cons t rest ih =>
    intro seen
    by_cases ht : t.1 ∈ seen
    · rw [retain_unique, if_pos ht]
      obtain ⟨ihm, ihp⟩ := ih (t.1 :: seen)
      refine ⟨?_, ihp⟩
      intro x hx
      obtain ⟨hx1, hx2⟩ := ihm x hx
      exact ⟨List.mem_cons_of_mem t hx1, fun hc => hx2 (List.mem_cons_of_mem _ hc)⟩
    · rw [retain_unique, if_neg ht]
      obtain ⟨ihm, ihp⟩ := ih (t.1 :: seen)
      constructor
      · intro x hx
        rcases List.mem_cons.mp hx with h | h
        · subst h; exact ⟨List.mem_cons_self _ _, ht⟩
        · obtain ⟨hx1, hx2⟩ := ihm x h
          exact ⟨List.mem_cons_of_mem t hx1, fun hc => hx2 (List.mem_cons_of_mem _ hc)⟩
      · rw [List.pairwise_cons]
        refine ⟨?_, ihp⟩
        intro x hx
        have := (ihm x hx).2
        intro hc
        exact this (hc ▸ List.mem_cons_self t.1 seen)

/-- On an input whose points are already pairwise distinct and unseen,
`retain_unique` keeps everything. -/
theorem retain_unique_eq_self :
    ∀ {l : List (Point3d × V × Nat)},
      List.Pairwise (fun a b => a.1 ≠ b.1) l →
      ∀ (seen : List Point3d), (∀ x ∈ l, x.1 ∉ seen) →
        retain_unique seen l = l := by
  intro l
  induction l with
  | nil => intro _ seen _; rfl
  | cons t rest ih =>
    intro hdist seen hseen
    obtain ⟨hd1, hd2⟩ := List.pairwise_cons.mp hdist
    rw [retain_unique, if_neg (hseen t (List.mem_cons_self t rest))]
    congr 1
    refine ih hd2 (t.1 :: seen) ?_
    intro x hx
    intro hc
    rcases List.mem_cons.mp hc with h | h
    · exact hd1 x hx h.symm
    · exact hseen x (List.mem_cons_of_mem t hx) h

theorem pairwise_combine {α : Type} {R S T : α → α → Prop}
    (h : ∀ a b, R a b → S a b → T a b) :
    ∀ {l : List α}, List.Pairwise R l → List.Pairwise S l → List.Pairwise T l := by
  intro l
  induction l with
  | nil => intro _ _; exact List.Pairwise.nil
  | cons a l ih =>
    intro hR hS
    obtain ⟨hR1, hR2⟩ := List.pairwise_cons.mp hR
    obtain ⟨hS1, hS2⟩ := List.pairwise_cons.mp hS
    exact List.pairwise_cons.mpr ⟨fun b hb => h a b (hR1 b hb) (hS1 b hb), ih hR2 hS2⟩

/-- Master lemma for `from_iter`: it never panics (always returns a tree),
the tree satisfies the §3 invariants, and its (point, rank) vertices are
exactly the deduplicated input triples. -/
theorem from_iter_ok (lift : Point3d × V → M) (combine : M → M → M)
    (l : List (Point3d × V × Nat)) :
    ∃ t, from_iter lift combine l = some t ∧ Valid t ∧
      (∀ q, q ∈ nodes t ↔ ∃ x ∈ retain_unique [] l, q = (x.1, x.2.2)) := by
  have hspec := retain_unique_spec (V := V) l []
  have hdist : List.Pairwise (fun a b => a.1 ≠ b.1) (retain_unique [] l) := hspec.2
  have hperm :
      List.Perm (List.insertionSort le_triples (retain_unique [] l))
        (retain_unique [] l) :=
    List.perm_insertionSort _ _
  haveI := le_triples_total (V := V)
  haveI := le_triples_trans (V := V)
  have hsorted :
      List.Pairwise le_triples (List.insertionSort le_triples (retain_unique [] l)) :=
    List.sorted_insertionSort _ _
  have hdist2 :
      List.Pairwise (fun a b : Point3d × V × Nat => a.1 ≠ b.1)
        (List.insertionSort le_triples (retain_unique [] l)) :=
    (hperm.pairwise_iff (fun h => h.symm)).mpr hdist
  have hpw : List.Pairwise insOrder (List.insertionSort le_triples (retain_unique [] l)) :=
    pairwise_combine (fun a b hle hne => insOrder_of_le_of_ne hle hne) hsorted hdist2
  obtain ⟨t, hfold, hv, hmem⟩ :=
    fold_insert_ok lift combine (List.insertionSort le_triples (retain_unique [] l))
      empty trivial (fun x _ q hq => absurd hq (by simp [nodes])) hpw
  refine ⟨t, hfold, hv, ?_⟩
  intro q
  rw [hmem q]
  simp only [nodes, List.not_mem_nil, false_or]
  constructor
  · rintro ⟨x, hx, hq⟩
    exact ⟨x, hperm.mem_iff.mp hx, hq⟩
  · rintro ⟨x, hx, hq⟩
    exact ⟨x, hperm.mem_iff.mpr hx, hq⟩

/-- Each triple kept by `retain_unique` is the first element of the input
carrying its point. -/
theorem retain_unique_first :
    ∀ (l : List (Point3d × V × Nat)) (seen : List Point3d),
      ∀ x ∈ retain_unique seen l,
        List.find? (fun b => decide (b.1 = x.1)) l = some x := by
  intro l
  induction l with
  | nil => intro seen x hx; simp [retain_unique] at hx
  | cons t rest ih =>
    intro seen x hx
    by_cases ht : t.1 ∈ seen
    · rw [retain_unique, if_pos ht] at hx
      have hnotin := ((retain_unique_spec rest (t.1 :: seen)).1 x hx).2
      have hne : (decide (t.1 = x.1)) = false := by
        refine decide_eq_false ?_
        intro hc
        exact hnotin (hc ▸ List.mem_cons_self t.1 seen)
      rw [List.find?_cons, hne]
      exact ih (t.1 :: seen) x hx
    · rw [retain_unique, if_neg ht] at hx
      rcases List.mem_cons.mp hx with h | h
      · subst h
        rw [List.find?_cons, decide_eq_true rfl]
      · have hnotin := ((retain_unique_spec rest (t.1 :: seen)).1 x h).2
        have hne : (decide (t.1 = x.1)) = false := by
          refine decide_eq_false ?_
          intro hc
          exact hnotin (hc ▸ List.mem_cons_self t.1 seen)
        rw [List.find?_cons, hne]
        exact ih (t.1 :: seen) x h

/-- Every point of the input survives into the deduplicated list (unless
already seen). -/
theorem retain_unique_covers :
    ∀ (l : List (Point3d × V × Nat)) (seen : List Point3d),
      ∀ y ∈ l, y.1 ∈ seen ∨ ∃ x ∈ retain_unique seen l, x.1 = y.1 := by
  intro l
  induction l with
  | nil => intro seen y hy; cases hy
  | cons t rest ih =>
    intro seen y hy
    by_cases ht : t.1 ∈ seen
    · rw [retain_unique, if_pos ht]
      rcases List.mem_cons.mp hy with h | h
      · subst h; exact Or.inl ht
      · rcases ih (t.1 :: seen) y h with hs | ⟨x, hx, hxy⟩
        · rcases List.mem_cons.mp hs with h2 | h2
          · exact Or.inl (h2 ▸ ht)
          · exact Or.inl h2
        · exact Or.inr ⟨x, hx, hxy⟩
    · rw [retain_unique, if_neg ht]
      rcases List.mem_cons.mp hy with h | h
      · subst h
        exact Or.inr ⟨y, List.mem_cons_self _ _, rfl⟩
      · rcases ih (t.1 :: seen) y h with hs | ⟨x, hx, hxy⟩
        · rcases List.mem_cons.mp hs with h2 | h2
          · exact Or.inr ⟨t, List.mem_cons_self _ _, h2.symm⟩
          · exact Or.inl h2
        · exact Or.inr ⟨x, List.mem_cons_of_mem t hx, hxy⟩

theorem cmp_rank_of_mod0 {r : Nat} (h : r % 3 = 0) {p q : Point3d} :
    cmp_points_at_rank r p q = cmp_zxy p q := by
  simp [cmp_points_at_rank, h]

theorem cmp_rank_of_mod1 {r : Nat} (h : r % 3 = 1) {p q : Point3d} :
    cmp_points_at_rank r p q = cmp_yzx p q := by
  simp [cmp_points_at_rank, h]

theorem cmp_rank_of_mod2 {r : Nat} (h : r % 3 = 2) {p q : Point3d} :
    cmp_points_at_rank r p q = cmp_xyz p q := by
  simp [cmp_points_at_rank, h]

theorem pickMin_cases (cmp : Point3d → Point3d → Ordering) (o : Option Point3d)
    (cur : Point3d) :
    pickMin cmp o cur = cur ∨ o = some (pickMin cmp o cur) := by
  cases o with
  | none => exact Or.inl rfl
  | some q =>
    by_cases h : cmp q cur = Ordering.lt
    · right
      simp [pickMin, h]
    · left
      simp [pickMin, h]

theorem pickMax_cases (cmp : Point3d → Point3d → Ordering) (o : Option Point3d)
    (cur : Point3d) :
    pickMax cmp o cur = cur ∨ o = some (pickMax cmp o cur) := by
  cases o with
  | none => exact Or.inl rfl
  | some q =>
    by_cases h : cmp q cur = Ordering.gt
    · right
      simp [pickMax, h]
    · left
      simp [pickMax, h]

theorem pickMin_mem_keys {cmp : Point3d → Point3d → Ordering} {o : Option Point3d}
    {cur : Point3d} {ks : List Point3d} (hcur : cur ∈ ks)
    (ho : ∀ m, o = some m → m ∈ ks) : pickMin cmp o cur ∈ ks := by
  rcases pickMin_cases cmp o cur with h | h
  · rw [h]; exact hcur
  · exact ho _ h

theorem pickMax_mem_keys {cmp : Point3d → Point3d → Ordering} {o : Option Point3d}
    {cur : Point3d} {ks : List Point3d} (hcur : cur ∈ ks)
    (ho : ∀ m, o = some m → m ∈ ks) : pickMax cmp o cur ∈ ks := by
  rcases pickMax_cases cmp o cur with h | h
  · rw [h]; exact hcur
  · exact ho _ h

/-- Soundness of the verifier on valid trees: no assertion fails, and every
reported min/max is a point of the tree while the reported rank is the root
rank. -/
theorem do_assert_sound :
    ∀ {t : ControlNode V M}, Valid t →
      ∃ st, do_assert_tree_invariants t = some st ∧
        st.rnk = rootRank t ∧
        (∀ m, st.minXyz = some m → m ∈ keysOf t) ∧
        (∀ m, st.maxXyz = some m → m ∈ keysOf t) ∧
        (∀ m, st.minYzx = some m → m ∈ keysOf t) ∧
        (∀ m, st.maxYzx = some m → m ∈ keysOf t) ∧
        (∀ m, st.minZxy = some m → m ∈ keysOf t) ∧
        (∀ m, st.maxZxy = some m → m ∈ keysOf t) := by
  intro t
  induction t with
  | empty =>
    intro _
    exact ⟨⟨none, none, none, none, none, none, none⟩, rfl, rfl,
      by simp, by simp, by simp, by simp, by simp, by simp⟩
  | nonEmpty key r l rt val c s ihl ihr =>
    intro hval
    obtain ⟨hvl, hvr, hlrank, hrrank, hlsep, hrsep⟩ := hval
    obtain ⟨li, hli, hlrnk, hlminx, hlmaxx, hlminy, hlmaxy, hlminz, hlmaxz⟩ := ihl hvl
    obtain ⟨ri, hri, hrrnk, hrminx, hrmaxx, hrminy, hrmaxy, hrminz, hrmaxz⟩ := ihr hvr
    have hkeyslsep : ∀ m ∈ keysOf l, cmp_points_at_rank r m key = Ordering.lt := by
      intro m hm
      obtain ⟨q, hq, rfl⟩ := List.mem_map.mp hm
      exact hlsep q hq
    have hkeysrsep : ∀ m ∈ keysOf rt, cmp_points_at_rank r key m = Ordering.lt := by
      intro m hm
      obtain ⟨q, hq, rfl⟩ := List.mem_map.mp hm
      exact hrsep q hq
    have hc1 : rank_check_left li.rnk r = true := by
      rw [hlrnk]
      cases hro : rootRank l with
      | none => rfl
      | some lr => simpa [rank_check_left] using hlrank lr hro
    have hc2 : rank_check_right ri.rnk r = true := by
      rw [hrrnk]
      cases hro : rootRank rt with
      | none => rfl
      | some rr => simpa [rank_check_right] using hrrank rr hro
    have hord :
        (if r % 3 = 0 then
            sep_check_left cmp_zxy li.maxZxy key &&
              sep_check_right cmp_zxy ri.minZxy key
          else if r % 3 = 1 then
            sep_check_left cmp_yzx li.maxYzx key &&
              sep_check_right cmp_yzx ri.minYzx key
          else
            sep_check_left cmp_xyz li.maxXyz key &&
              sep_check_right cmp_xyz ri.minXyz key) = true := by
      have h3 : r % 3 = 0 ∨ r % 3 = 1 ∨ r % 3 = 2 := by omega
      rcases h3 with h3 | h3 | h3
      · rw [if_pos h3]
        have hleft : sep_check_left cmp_zxy li.maxZxy key = true := by
          cases ho : li.maxZxy with
          | none => rfl
          | some m =>
            have hm := hlmaxz m ho
            have := hkeyslsep m hm
            rw [cmp_rank_of_mod0 h3] at this
            simp [sep_check_left, this]
        have hright : sep_check_right cmp_zxy ri.minZxy key = true := by
          cases ho : ri.minZxy with
          | none => rfl
          | some m =>
            have hm := hrminz m ho
            have := hkeysrsep m hm
            rw [cmp_rank_of_mod0 h3] at this
            simp [sep_check_right, cmp_zxy_eq_gt.mpr this]
        rw [hleft, hright]
        rfl
      · rw [if_neg (by omega), if_pos h3]
        have hleft : sep_check_left cmp_yzx li.maxYzx key = true := by
          cases ho : li.maxYzx with
          | none => rfl
          | some m =>
            have hm := hlmaxy m ho
            have := hkeyslsep m hm
            rw [cmp_rank_of_mod1 h3] at this
            simp [sep_check_left, this]
        have hright : sep_check_right cmp_yzx ri.minYzx key = true := by
          cases ho : ri.minYzx with
          | none => rfl
          | some m =>
            have hm := hrminy m ho
            have := hkeysrsep m hm
            rw [cmp_rank_of_mod1 h3] at this
            simp [sep_check_right, cmp_yzx_eq_gt.mpr this]
        rw [hleft, hright]
        rfl
      · rw [if_neg (by omega), if_neg (by omega)]
        have hleft : sep_check_left cmp_xyz li.maxXyz key = true := by
          cases ho : li.maxXyz with
          | none => rfl
          | some m =>
            have hm := hlmaxx m ho
            have := hkeyslsep m hm
            rw [cmp_rank_of_mod2 h3] at this
            simp [sep_check_left, this]
        have hright : sep_check_right cmp_xyz ri.minXyz key = true := by
          cases ho : ri.minXyz with
          | none => rfl
          | some m =>
            have hm := hrminx m ho
            have := hkeysrsep m hm
            rw [cmp_rank_of_mod2 h3] at this
            simp [sep_check_right, cmp_xyz_eq_gt.mpr this]
        rw [hleft, hright]
        rfl
    have hkeyseq : keysOf (nonEmpty key r l rt val c s) =
        key :: (keysOf l ++ keysOf rt) := by
      simp [keysOf, nodes]
    have hkm : key ∈ keysOf (nonEmpty key r l rt val c s) := by
      rw [hkeyseq]; exact List.mem_cons_self _ _
    have hsubl : ∀ m ∈ keysOf l, m ∈ keysOf (nonEmpty key r l rt val c s) := by
      intro m hm
      rw [hkeyseq]
      exact List.mem_cons_of_mem _ (List.mem_append_left _ hm)
    have hsubr : ∀ m ∈ keysOf rt, m ∈ keysOf (nonEmpty key r l rt val c s) := by
      intro m hm
      rw [hkeyseq]
      exact List.mem_cons_of_mem _ (List.mem_append_right _ hm)
    refine ⟨⟨some (pickMin cmp_xyz ri.minXyz (pickMin cmp_xyz li.minXyz key)),
      some (pickMax cmp_xyz ri.maxXyz (pickMax cmp_xyz li.maxXyz key)),
      some (pickMin cmp_yzx ri.minYzx (pickMin cmp_yzx li.minYzx key)),
      some (pickMax cmp_yzx ri.maxYzx (pickMax cmp_yzx li.maxYzx key)),
      some (pickMin cmp_zxy ri.minZxy (pickMin cmp_zxy li.minZxy key)),
      some (pickMax cmp_zxy ri.maxZxy (pickMax cmp_zxy li.maxZxy key)),
      some r⟩, ?_, rfl, ?_, ?_, ?_, ?_, ?_, ?_⟩
    · rw [do_assert_tree_invariants, hli, hri]
      simp only [hc1, hc2, hord, Bool.and_self, Bool.true_and, if_pos]
    · intro m hm
      rw [Option.some.injEq] at hm
      subst hm
      exact pickMin_mem_keys (pickMin_mem_keys hkm (fun m h => hsubl m (hlminx m h)))
        (fun m h => hsubr m (hrminx m h))
    · intro m hm
      rw [Option.some.injEq] at hm
      subst hm
      exact pickMax_mem_keys (pickMax_mem_keys hkm (fun m h => hsubl m (hlmaxx m h)))
        (fun m h => hsubr m (hrmaxx m h))
    · intro m hm
      rw [Option.some.injEq] at hm
      subst hm
      exact pickMin_mem_keys (pickMin_mem_keys hkm (fun m h => hsubl m (hlminy m h)))
        (fun m h => hsubr m (hrminy m h))
    · intro m hm
      rw [Option.some.injEq] at hm
      subst hm
      exact pickMax_mem_keys (pickMax_mem_keys hkm (fun m h => hsubl m (hlmaxy m h)))
        (fun m h => hsubr m (hrmaxy m h))
    · intro m hm
      rw [Option.some.injEq] at hm
      subst hm
      exact pickMin_mem_keys (pickMin_mem_keys hkm (fun m h => hsubl m (hlminz m h)))
        (fun m h => hsubr m (hrminz m h))
    · intro m hm
      rw [Option.some.injEq] at hm
      subst hm
      exact pickMax_mem_keys (pickMax_mem_keys hkm (fun m h => hsubl m (hlmaxz m h)))
        (fun m h => hsubr m (hrmaxz m h))

theorem treeSize_eq_nodes_length {t : ControlNode V M} :
    treeSize t = (nodes t).length := by
  induction t with
  | empty => rfl
  | nonEmpty k r l rt v c s ihl ihr =>
    simp [treeSize, nodes, ihl, ihr]
    omega

theorem insert_counting_ok {V : Type} :
    ∀ {t t2 : ControlNode V Nat} {p : Point3d} {v : V} {r : Nat},
      insert_no_balance usize_lift usize_combine t p v r = some t2 →
      treeSize t2 = treeSize t + 1 ∧ (counting_ok t → counting_ok t2) := by
  intro t
  induction t with
  | empty =>
    intro t2 p v r h
    rw [insert_no_balance] at h
    rw [Option.some.injEq] at h
    subst h
    exact ⟨rfl, fun _ => ⟨rfl, rfl, trivial, trivial⟩⟩
  | nonEmpty k pr l rt val c s ihl ihr =>
    intro t2 p v r h
    rw [insert_no_balance] at h
    rcases hcmp : cmp_points_at_rank pr k p with _ | _ | _ <;> rw [hcmp] at h
    · obtain ⟨rt2, hrt2, heq⟩ := Option.map_eq_some'.mp h
      subst heq
      obtain ⟨hsz, hok⟩ := ihr hrt2
      constructor
      · simp [treeSize, hsz]
        omega
      · rintro ⟨hc, hs, hol, hor⟩
        exact ⟨by simp [treeSize, hsz]; omega,
          by simp [usize_combine, usize_lift]; omega, hol, hok hor⟩
    · cases h
    · obtain ⟨l2, hl2, heq⟩ := Option.map_eq_some'.mp h
      subst heq
      obtain ⟨hsz, hok⟩ := ihl hl2
      constructor
      · simp [treeSize, hsz]
        omega
      · rintro ⟨hc, hs, hol, hor⟩
        exact ⟨by simp [treeSize, hsz]; omega,
          by simp [usize_combine, usize_lift]; omega, hok hol, hor⟩

theorem fold_counting_ok {V : Type} :
    ∀ (l : List (Point3d × V × Nat)) {t t2 : ControlNode V Nat},
      l.foldlM (fun t x => insert_no_balance usize_lift usize_combine t x.1 x.2.1 x.2.2) t =
          some t2 →
      treeSize t2 = treeSize t + l.length ∧ (counting_ok t → counting_ok t2) := by
  intro l
  induction l with
  | nil =>
    intro t t2 h
    simp only [List.foldlM_nil] at h
    rw [show (pure t : Option (ControlNode V Nat)) = some t from rfl,
      Option.some.injEq] at h
    subst h
    exact ⟨by simp, id⟩
  | cons a l ih =>
    intro t t2 h
    rw [List.foldlM_cons] at h
    obtain ⟨t1, h1, h2⟩ := Option.bind_eq_some.mp h
    obtain ⟨hsz1, hok1⟩ := insert_counting_ok h1
    obtain ⟨hsz2, hok2⟩ := ih h2
    refine ⟨?_, fun hok => hok2 (hok1 hok)⟩
    rw [hsz2, hsz1]
    simp [List.length_cons]
    omega

theorem from_iter_counting {V : Type} {l : List (Point3d × V × Nat)}
    {t : ControlNode V Nat}
    (hdist : List.Pairwise (fun a b => a.1 ≠ b.1) l)
    (h : from_iter usize_lift usize_combine l = some t) :
    counting_ok t ∧ treeSize t = l.length := by
  rw [from_iter] at h
  obtain ⟨hsz, hok⟩ := fold_counting_ok _ h
  have hlen : (List.insertionSort le_triples (retain_unique [] l)).length = l.length := by
    rw [(List.perm_insertionSort le_triples (retain_unique [] l)).length_eq]
    rw [retain_unique_eq_self hdist [] (by simp)]
  refine ⟨hok trivial, ?_⟩
  rw [hsz, hlen]
  simp [treeSize]

theorem valid_subtree {s t : ControlNode V M} (hsub : SubtreeOf s t)
    (hv : Valid t) : Valid s := by
  induction hsub with
  | refl => exact hv
  | inLeft _ ih => exact ih hv.1
  | inRight _ ih => exact ih hv.2.1

theorem counting_subtree {V : Type} {s t : ControlNode V Nat}
    (hsub : SubtreeOf s t) (hok : counting_ok t) : counting_ok s := by
  induction hsub with
  | refl => exact hok
  | inLeft _ ih => exact ih hok.2.2.1
  | inRight _ ih => exact ih hok.2.2.2

theorem nodes_subtree {s t : ControlNode V M} (hsub : SubtreeOf s t) :
    ∀ q ∈ nodes s, q ∈ nodes t := by
  induction hsub with
  | refl => exact fun q hq => hq
  | inLeft _ ih =>
    intro q hq
    simp only [nodes, List.mem_cons, List.mem_append]
    exact Or.inr (Or.inl (ih q hq))
  | inRight _ ih =>
    intro q hq
    simp only [nodes, List.mem_cons, List.mem_append]
    exact Or.inr (Or.inr (ih q hq))

/-- Two sorted lists that are permutations of each other and whose elements
are antisymmetric under the sort relation are equal. -/
theorem sorted_unique {l₁ l₂ : List (Point3d × V × Nat)}
    (hp : List.Perm l₁ l₂)
    (hs₁ : List.Pairwise le_triples l₁) (hs₂ : List.Pairwise le_triples l₂)
    (hanti : ∀ a ∈ l₁, ∀ b ∈ l₁, le_triples a b → le_triples b a → a = b) :
    l₁ = l₂ := by
  induction l₁ generalizing l₂ with
  | nil => exact hp.nil_eq
  | cons a t₁ ih =>
    cases l₂ with
    | nil => exact absurd hp.symm (by simp)
    | cons b t₂ =>
      obtain ⟨ha1, ht1⟩ := List.pairwise_cons.mp hs₁
      obtain ⟨hb2, ht2⟩ := List.pairwise_cons.mp hs₂
      have hab : a = b := by
        have hain : a ∈ b :: t₂ := hp.subset (List.mem_cons_self _ _)
        have hbin : b ∈ a :: t₁ := hp.symm.subset (List.mem_cons_self _ _)
        rcases List.mem_cons.mp hain with h | h
        · exact h
        · rcases List.mem_cons.mp hbin with h2 | h2
          · exact h2.symm
          · exact hanti a (List.mem_cons_self _ _) b (List.mem_cons_of_mem _ h2)
              (ha1 b h2) (hb2 a h)
      subst hab
      have hp2 : List.Perm t₁ t₂ := hp.cons_inv
      have hanti2 : ∀ x ∈ t₁, ∀ y ∈ t₁, le_triples x y → le_triples y x → x = y :=
        fun x hx y hy => hanti x (List.mem_cons_of_mem _ hx) y (List.mem_cons_of_mem _ hy)
      rw [ih hp2 ht1 ht2 hanti2]

/-- Construction determinism on duplicate-free inputs: `from_iter` is
invariant under permutation of the input when all points are distinct. -/
theorem from_iter_det (lift : Point3d × V → M) (combine : M → M → M)
    {l₁ l₂ : List (Point3d × V × Nat)}
    (hperm : List.Perm l₁ l₂)
    (hdist : List.Pairwise (fun a b => a.1 ≠ b.1) l₁) :
    from_iter lift combine l₁ = from_iter lift combine l₂ := by
  haveI := le_triples_total (V := V)
  haveI := le_triples_trans (V := V)
  have hdist₂ : List.Pairwise (fun a b : Point3d × V × Nat => a.1 ≠ b.1) l₂ :=
    (hperm.pairwise_iff (fun h => h.symm)).mp hdist
  have hanti : ∀ a ∈ List.insertionSort le_triples l₁,
      ∀ b ∈ List.insertionSort le_triples l₁,
      le_triples a b → le_triples b a → a = b := by
    intro a ha b hb hab hba
    by_cases heq : a = b
    · exact heq
    · have hdists : List.Pairwise (fun a b : Point3d × V × Nat => a.1 ≠ b.1)
          (List.insertionSort le_triples l₁) :=
        ((List.perm_insertionSort le_triples l₁).pairwise_iff (fun h => h.symm)).mpr hdist
      have hne : a.1 ≠ b.1 := hdists.forall (fun _ _ h => h.symm) ha hb heq
      exfalso
      unfold le_triples at hab hba
      rw [cmp_triples_swap] at hba
      have heqo : cmp_triples a b = Ordering.eq := by
        rcases hc : cmp_triples a b with _ | _ | _
        · rw [hc] at hba
          exact absurd rfl hba
        · rfl
        · exact absurd hc hab
      unfold cmp_triples at heqo
      rcases hragg : compare b.2.2 a.2.2 with _ | _ | _ <;> rw [hragg] at heqo
      · cases heqo
      · exact hne (cmp_rank_eq_eq.mp heqo)
      · cases heqo
  have hsorted :
      List.insertionSort le_triples l₁ = List.insertionSort le_triples l₂ := by
    refine sorted_unique ?_ (List.sorted_insertionSort _ _)
      (List.sorted_insertionSort _ _) hanti
    exact (List.perm_insertionSort _ l₁).trans
      (hperm.trans (List.perm_insertionSort _ l₂).symm)
  rw [from_iter, from_iter, retain_unique_eq_self hdist [] (by simp),
    retain_unique_eq_self hdist₂ [] (by simp), hsorted]

/-- Inserting a point that already occurs in a valid tree reaches the
`Ordering::Equal` branch of `insert_no_balance`, i.e. the duplicate-point
panic. -/
theorem insert_duplicate_panics (lift : Point3d × V → M) (combine : M → M → M) :
    ∀ {t : ControlNode V M} {p : Point3d} {v : V} {r rp : Nat},
      Valid t → (p, rp) ∈ nodes t →
      insert_no_balance lift combine t p v r = none := by
  intro t
  induction t with
  | empty => intro p v r rp _ hmem; cases hmem
  | nonEmpty k pr l rt val c s ihl ihr =>
    intro p v r rp hval hmem
    obtain ⟨hvl, hvr, _, _, hlsep, hrsep⟩ := hval
    rcases hcmp : cmp_points_at_rank pr k p with _ | _ | _
    · -- descends right: p must be in the right subtree
      have hpr : (p, rp) ∈ nodes rt := by
        rcases List.mem_cons.mp hmem with h | h
        · exfalso
          have : k = p := congrArg Prod.fst h.symm
          rw [this] at hcmp
          rw [cmp_rank_refl] at hcmp
          cases hcmp
        · rcases List.mem_append.mp h with h2 | h2
          · exfalso
            have := hlsep (p, rp) h2
            have hgt : cmp_points_at_rank pr k p = Ordering.gt := cmp_rank_eq_gt.mpr this
            rw [hgt] at hcmp
            cases hcmp
          · exact h2
      rw [insert_no_balance, hcmp, ihr hvr hpr]
      rfl
    · rw [insert_no_balance, hcmp]
    · have hpl : (p, rp) ∈ nodes l := by
        rcases List.mem_cons.mp hmem with h | h
        · exfalso
          have : k = p := congrArg Prod.fst h.symm
          rw [this] at hcmp
          rw [cmp_rank_refl] at hcmp
          cases hcmp
        · rcases List.mem_append.mp h with h2 | h2
          · exact h2
          · exfalso
            have := hrsep (p, rp) h2
            have : cmp_points_at_rank pr k p = Ordering.lt := this
            rw [this] at hcmp
            cases hcmp
      rw [insert_no_balance, hcmp, ihl hvl hpl]
      rfl

end ControlNode

theorem enc_at_rank_hom {kx ky kz : Bool} {r : Nat} {p q : Point3d} :
    byteCompare (enc_at_rank kx ky kz r p) (enc_at_rank kx ky kz r q) =
      cmp_points_at_rank r p q := by
  unfold enc_at_rank cmp_points_at_rank
  by_cases h2 : r % 3 = 2
  · simp only [if_pos h2]
    exact encode_xyz_hom
  · by_cases h1 : r % 3 = 1
    · simp only [if_neg h2, if_pos h1]
      exact encode_yzx_hom
    · simp only [if_neg h2, if_neg h1]
      exact encode_zxy_hom

theorem kv_key_cmp_same_rank {kx ky kz : Bool} {r : Nat} {p q : Point3d} :
    byteCompare (kv_key kx ky kz r p) (kv_key kx ky kz r q) =
      cmp_points_at_rank r p q := by
  unfold kv_key
  rw [byteCompare_cons, nat_compare_self, enc_at_rank_hom]
  rfl

theorem cmp_rank_congr {r1 r2 : Nat} (h : r1 % 3 = r2 % 3) {p q : Point3d} :
    cmp_points_at_rank r1 p q = cmp_points_at_rank r2 p q := by
  unfold cmp_points_at_rank
  rw [h]

theorem lt_step_none {q k : List Nat} (h : byteCompare k q = Ordering.lt) :
    lt_step q none k = some k := by
  unfold lt_step
  rw [if_pos h]

theorem lt_step_some {q k m : List Nat} (h : byteCompare k q = Ordering.lt) :
    lt_step q (some m) k =
      if byteCompare m k = Ordering.lt then some k else some m := by
  unfold lt_step
  rw [if_pos h]

theorem lt_step_skip {q k : List Nat} {acc : Option (List Nat)}
    (h : ¬ byteCompare k q = Ordering.lt) : lt_step q acc k = acc := by
  unfold lt_step
  rw [if_neg h]

theorem gt_step_none {q k : List Nat} (h : byteCompare k q = Ordering.gt) :
    gt_step q none k = some k := by
  unfold gt_step
  rw [if_pos h]

theorem gt_step_some {q k m : List Nat} (h : byteCompare k q = Ordering.gt) :
    gt_step q (some m) k =
      if byteCompare k m = Ordering.lt then some k else some m := by
  unfold gt_step
  rw [if_pos h]

theorem gt_step_skip {q k : List Nat} {acc : Option (List Nat)}
    (h : ¬ byteCompare k q = Ordering.gt) : gt_step q acc k = acc := by
  unfold gt_step
  rw [if_neg h]

theorem find_lt_go {q k0 : List Nat} :
    ∀ (store : List (List Nat)) (acc : Option (List Nat)),
      (k0 ∈ store ∨ acc = some k0) →
      (∀ m, acc = some m →
        byteCompare m q = Ordering.lt ∧
          (m = k0 ∨ byteCompare m k0 = Ordering.lt)) →
      byteCompare k0 q = Ordering.lt →
      (∀ k ∈ store, byteCompare k q = Ordering.lt → k ≠ k0 →
        byteCompare k k0 = Ordering.lt) →
      store.foldl (lt_step q) acc = some k0 := by
  intro store
  induction store with
  | nil =>
    intro acc hin _ _ _
    rcases hin with h | h
    · cases h
    · exact h
  | cons k rest ih =>
    intro acc hin hacc hk0q hmax
    rw [List.foldl_cons]
    by_cases hkq : byteCompare k q = Ordering.lt
    · by_cases hkk0 : k = k0
      · subst hkk0
        have hstep : lt_step q acc k = some k := by
          cases hac : acc with
          | none => exact lt_step_none hkq
          | some m =>
            rw [lt_step_some hkq]
            rcases (hacc m hac).2 with hm | hm
            · subst hm
              rw [if_neg (by rw [byteCompare_refl]; intro hc; cases hc)]
            · rw [if_pos hm]
        refine ih (lt_step q acc k) (Or.inr hstep) ?_ hk0q ?_
        · intro m hm
          rw [hstep, Option.some.injEq] at hm
          subst hm
          exact ⟨hk0q, Or.inl rfl⟩
        · intro k2 hk2 h1 h2
          exact hmax k2 (List.mem_cons_of_mem _ hk2) h1 h2
      · have hlt : byteCompare k k0 = Ordering.lt :=
          hmax k (List.mem_cons_self _ _) hkq hkk0
        have hin2 : k0 ∈ rest ∨ lt_step q acc k = some k0 := by
          rcases hin with h | h
          · rcases List.mem_cons.mp h with h2 | h2
            · exact absurd h2.symm hkk0
            · exact Or.inl h2
          · right
            rw [h, lt_step_some hkq]
            have hswap : byteCompare k0 k = Ordering.gt := by
              rw [byteCompare_swap, hlt]
              rfl
            rw [if_neg (by rw [hswap]; intro hc; cases hc)]
        have hacc2 : ∀ m, lt_step q acc k = some m →
            byteCompare m q = Ordering.lt ∧
              (m = k0 ∨ byteCompare m k0 = Ordering.lt) := by
          intro m hm
          cases hac : acc with
          | none =>
            rw [hac, lt_step_none hkq, Option.some.injEq] at hm
            subst hm
            exact ⟨hkq, Or.inr hlt⟩
          | some m0 =>
            rw [hac, lt_step_some hkq] at hm
            by_cases hcmp : byteCompare m0 k = Ordering.lt
            · rw [if_pos hcmp, Option.some.injEq] at hm
              subst hm
              exact ⟨hkq, Or.inr hlt⟩
            · rw [if_neg hcmp, Option.some.injEq] at hm
              subst hm
              exact hacc m0 hac
        refine ih (lt_step q acc k) hin2 hacc2 hk0q ?_
        intro k2 hk2 h1 h2
        exact hmax k2 (List.mem_cons_of_mem _ hk2) h1 h2
    · rw [lt_step_skip hkq]
      have hin2 : k0 ∈ rest ∨ acc = some k0 := by
        rcases hin with h | h
        · rcases List.mem_cons.mp h with h2 | h2
          · exact absurd (h2 ▸ hk0q) hkq
          · exact Or.inl h2
        · exact Or.inr h
      refine ih acc hin2 hacc hk0q ?_
      intro k2 hk2 h1 h2
      exact hmax k2 (List.mem_cons_of_mem _ hk2) h1 h2

theorem find_lt_spec {store : List (List Nat)} {q k0 : List Nat}
    (hmem : k0 ∈ store) (hlt : byteCompare k0 q = Ordering.lt)
    (hmax : ∀ k ∈ store, byteCompare k q = Ordering.lt → k ≠ k0 →
      byteCompare k k0 = Ordering.lt) :
    find_lt store q = some k0 :=
  find_lt_go store none (Or.inl hmem) (by intro m hm; cases hm) hlt hmax

theorem find_gt_go {q k0 : List Nat} :
    ∀ (store : List (List Nat)) (acc : Option (List Nat)),
      (k0 ∈ store ∨ acc = some k0) →
      (∀ m, acc = some m →
        byteCompare m q = Ordering.gt ∧
          (m = k0 ∨ byteCompare k0 m = Ordering.lt)) →
      byteCompare k0 q = Ordering.gt →
      (∀ k ∈ store, byteCompare k q = Ordering.gt → k ≠ k0 →
        byteCompare k0 k = Ordering.lt) →
      store.foldl (gt_step q) acc = some k0 := by
  intro store
  induction store with
  | nil =>
    intro acc hin _ _ _
    rcases hin with h | h
    · cases h
    · exact h
  | cons k rest ih =>
    intro acc hin hacc hk0q hmin
    rw [List.foldl_cons]
    by_cases hkq : byteCompare k q = Ordering.gt
    · by_cases hkk0 : k = k0
      · subst hkk0
        have hstep : gt_step q acc k = some k := by
          cases hac : acc with
          | none => exact gt_step_none hkq
          | some m =>
            rw [gt_step_some hkq]
            rcases (hacc m hac).2 with hm | hm
            · subst hm
              rw [if_neg (by rw [byteCompare_refl]; intro hc; cases hc)]
            · rw [if_pos hm]
        refine ih (gt_step q acc k) (Or.inr hstep) ?_ hk0q ?_
        · intro m hm
          rw [hstep, Option.some.injEq] at hm
          subst hm
          exact ⟨hk0q, Or.inl rfl⟩
        · intro k2 hk2 h1 h2
          exact hmin k2 (List.mem_cons_of_mem _ hk2) h1 h2
      · have hlt : byteCompare k0 k = Ordering.lt :=
          hmin k (List.mem_cons_self _ _) hkq hkk0
        have hin2 : k0 ∈ rest ∨ gt_step q acc k = some k0 := by
          rcases hin with h | h
          · rcases List.mem_cons.mp h with h2 | h2
            · exact absurd h2.symm hkk0
            · exact Or.inl h2
          · right
            rw [h, gt_step_some hkq]
            have hswap : byteCompare k k0 = Ordering.gt := by
              rw [byteCompare_swap, hlt]
              rfl
            rw [if_neg (by rw [hswap]; intro hc; cases hc)]
        have hacc2 : ∀ m, gt_step q acc k = some m →
            byteCompare m q = Ordering.gt ∧
              (m = k0 ∨ byteCompare k0 m = Ordering.lt) := by
          intro m hm
          cases hac : acc with
          | none =>
            rw [hac, gt_step_none hkq, Option.some.injEq] at hm
            subst hm
            exact ⟨hkq, Or.inr hlt⟩
          | some m0 =>
            rw [hac, gt_step_some hkq] at hm
            by_cases hcmp : byteCompare k m0 = Ordering.lt
            · rw [if_pos hcmp, Option.some.injEq] at hm
              subst hm
              exact ⟨hkq, Or.inr hlt⟩
            · rw [if_neg hcmp, Option.some.injEq] at hm
              subst hm
              exact hacc m0 hac
        refine ih (gt_step q acc k) hin2 hacc2 hk0q ?_
        intro k2 hk2 h1 h2
        exact hmin k2 (List.mem_cons_of_mem _ hk2) h1 h2
    · rw [gt_step_skip hkq]
      have hin2 : k0 ∈ rest ∨ acc = some k0 := by
        rcases hin with h | h
        · rcases List.mem_cons.mp h with h2 | h2
          · exact absurd (h2 ▸ hk0q) hkq
          · exact Or.inl h2
        · exact Or.inr h
      refine ih acc hin2 hacc hk0q ?_
      intro k2 hk2 h1 h2
      exact hmin k2 (List.mem_cons_of_mem _ hk2) h1 h2

theorem find_gt_spec {store : List (List Nat)} {q k0 : List Nat}
    (hmem : k0 ∈ store) (hgt : byteCompare k0 q = Ordering.gt)
    (hmin : ∀ k ∈ store, byteCompare k q = Ordering.gt → k ≠ k0 →
      byteCompare k0 k = Ordering.lt) :
    find_gt store q = some k0 :=
  find_gt_go store none (Or.inl hmem) (by intro m hm; cases hm) hgt hmin

theorem validb_iff {V M : Type} :
    ∀ {t : ControlNode V M}, validb t = true ↔ ControlNode.Valid t := by
  intro t
  induction t with
  | empty => simp [validb, ControlNode.Valid]
  | nonEmpty k r l rt v c s ihl ihr =>
    rw [validb]
    simp only [Bool.and_eq_true, List.all_eq_true, decide_eq_true_eq]
    constructor
    · rintro ⟨⟨⟨⟨⟨hl, hr⟩, hlr⟩, hrr⟩, hls⟩, hrs⟩
      refine ⟨ihl.mp hl, ihr.mp hr, ?_, ?_, hls, hrs⟩
      · intro lr hlr2
        cases hro : ControlNode.rootRank l with
        | none => rw [hro] at hlr2; cases hlr2
        | some lr0 =>
          rw [hro] at hlr2
          rw [Option.some.injEq] at hlr2
          subst hlr2
          rw [hro] at hlr
          simpa [ControlNode.rank_check_left] using hlr
      · intro rr hrr2
        cases hro : ControlNode.rootRank rt with
        | none => rw [hro] at hrr2; cases hrr2
        | some rr0 =>
          rw [hro] at hrr2
          rw [Option.some.injEq] at hrr2
          subst hrr2
          rw [hro] at hrr
          simpa [ControlNode.rank_check_right] using hrr
    · rintro ⟨hl, hr, hlr, hrr, hls, hrs⟩
      refine ⟨⟨⟨⟨⟨ihl.mpr hl, ihr.mpr hr⟩, ?_⟩, ?_⟩, hls⟩, hrs⟩
      · cases hro : ControlNode.rootRank l with
        | none => rfl
        | some lr0 => simpa [ControlNode.rank_check_left] using hlr lr0 hro
      · cases hro : ControlNode.rootRank rt with
        | none => rfl
        | some rr0 => simpa [ControlNode.rank_check_right] using hrr rr0 hro

/-- In a list of (point, rank) pairs with pairwise distinct ranks, two
members sharing a rank are the same pair. -/
theorem rank_unique_mem {ns : List (Point3d × Nat)}
    (h : ns.Pairwise (fun a b => a.2 ≠ b.2)) {a b : Point3d × Nat}
    (ha : a ∈ ns) (hb : b ∈ ns) (hr : a.2 = b.2) : a = b := by
  by_cases heq : a = b
  · exact heq
  · exact absurd hr (h.forall (fun _ _ h2 => h2.symm) ha hb heq)

/-- Child lookup on the kv store, for trees whose vertex ranks are pairwise
distinct, all congruent modulo 3 (one shared separating ordering), and
byte-representable: for every vertex, the predecessor query below
`(child rank, child-rank encoding of the parent point)` returns exactly the
left child's key, and the successor query above it returns exactly the
right child's key. -/
theorem kv_child_lookup (kx ky kz : Bool) {V M : Type} {t : ControlNode V M}
    (hv : ControlNode.Valid t)
    (hranks : (ControlNode.nodes t).Pairwise (fun a b => a.2 ≠ b.2))
    (hmod : ∀ a ∈ ControlNode.nodes t, ∀ b ∈ ControlNode.nodes t,
      a.2 % 3 = b.2 % 3)
    (_hbyte : ∀ a ∈ ControlNode.nodes t, a.2 < 256)
    {k : Point3d} {r : Nat} {l rt : ControlNode V M} {v : V} {c : Nat} {sm : M}
    (hsub : ControlNode.SubtreeOf (ControlNode.nonEmpty k r l rt v c sm) t) :
    (∀ ck cr cl crt cv cc csm,
        l = ControlNode.nonEmpty ck cr cl crt cv cc csm →
        find_lt (storeOf kx ky kz t) (kv_key kx ky kz cr k) =
          some (kv_key kx ky kz cr ck)) ∧
    (∀ ck cr cl crt cv cc csm,
        rt = ControlNode.nonEmpty ck cr cl crt cv cc csm →
        find_gt (storeOf kx ky kz t) (kv_key kx ky kz cr k) =
          some (kv_key kx ky kz cr ck)) := by
  have hvs := ControlNode.valid_subtree hsub hv
  have hself : (k, r) ∈ ControlNode.nodes t :=
    ControlNode.nodes_subtree hsub (k, r) (by simp [ControlNode.nodes])
  constructor
  · intro ck cr cl crt cv cc csm heq
    subst heq
    have hchild : (ck, cr) ∈ ControlNode.nodes t := by
      refine ControlNode.nodes_subtree hsub (ck, cr) ?_
      simp [ControlNode.nodes]
    have hsep : cmp_points_at_rank r ck k = Ordering.lt :=
      hvs.2.2.2.2.1 (ck, cr) (by simp [ControlNode.nodes])
    have hmod2 : cr % 3 = r % 3 := hmod (ck, cr) hchild (k, r) hself
    have hlt : cmp_points_at_rank cr ck k = Ordering.lt := by
      rw [cmp_rank_congr hmod2]
      exact hsep
    have hk0mem : kv_key kx ky kz cr ck ∈ storeOf kx ky kz t :=
      List.mem_map.mpr ⟨(ck, cr), hchild, rfl⟩
    refine find_lt_spec hk0mem ?_ ?_
    · rw [kv_key_cmp_same_rank]
      exact hlt
    · intro key hkey hkeylt hkeyne
      obtain ⟨q2, hq2, rfl⟩ := List.mem_map.mp hkey
      simp only [kv_key] at hkeylt
      rw [byteCompare_cons] at hkeylt
      rcases hcr : compare q2.2 cr with _ | _ | _ <;> rw [hcr] at hkeylt
      · simp only [kv_key]
        rw [byteCompare_cons, hcr]
        rfl
      · exfalso
        apply hkeyne
        rw [rank_unique_mem hranks hq2 hchild (Nat.compare_eq_eq.mp hcr)]
      · exfalso
        simp [Ordering.then] at hkeylt
  · intro ck cr cl crt cv cc csm heq
    subst heq
    have hchild : (ck, cr) ∈ ControlNode.nodes t := by
      refine ControlNode.nodes_subtree hsub (ck, cr) ?_
      simp [ControlNode.nodes]
    have hsep : cmp_points_at_rank r k ck = Ordering.lt :=
      hvs.2.2.2.2.2 (ck, cr) (by simp [ControlNode.nodes])
    have hmod2 : cr % 3 = r % 3 := hmod (ck, cr) hchild (k, r) hself
    have hlt : cmp_points_at_rank cr k ck = Ordering.lt := by
      rw [cmp_rank_congr hmod2]
      exact hsep
    have hk0mem : kv_key kx ky kz cr ck ∈ storeOf kx ky kz t :=
      List.mem_map.mpr ⟨(ck, cr), hchild, rfl⟩
    refine find_gt_spec hk0mem ?_ ?_
    · rw [kv_key_cmp_same_rank]
      exact cmp_rank_eq_gt.mpr hlt
    · intro key hkey hkeygt hkeyne
      obtain ⟨q2, hq2, rfl⟩ := List.mem_map.mp hkey
      simp only [kv_key] at hkeygt
      rw [byteCompare_cons] at hkeygt
      rcases hcr : compare q2.2 cr with _ | _ | _ <;> rw [hcr] at hkeygt
      · exfalso
        simp [Ordering.then] at hkeygt
      · exfalso
        apply hkeyne
        rw [rank_unique_mem hranks hq2 hchild (Nat.compare_eq_eq.mp hcr)]
      · simp only [kv_key]
        rw [byteCompare_cons]
        have : compare cr q2.2 = Ordering.lt :=
          Nat.compare_eq_lt.mpr (Nat.compare_eq_gt.mp hcr)
        rw [this]
        rfl

theorem countOf_eq_treeSize {V : Type} {t : ControlNode V Nat}
    (h : ControlNode.counting_ok t) :
    ControlNode.countOf t = ControlNode.treeSize t := by
  cases t with
  | empty => rfl
  | nonEmpty k r l rt v c s =>
    rw [ControlNode.countOf, ControlNode.treeSize, h.1]

theorem summaryOf_eq_countOf {V : Type} {t : ControlNode V Nat}
    (h : ControlNode.counting_ok t) :
    ControlNode.summaryOf t = ControlNode.countOf t := by
  cases t with
  | empty => rfl
  | nonEmpty k r l rt v c s =>
    rw [ControlNode.summaryOf, ControlNode.countOf, h.2.1]

/-- C1: for every pair of points built from the two concrete dimension
encodings (`U8FixedWidth` and `U8VariableWidth`, in any mixture on the
three axes) and each of the three orderings, the comparator result equals
lexicographic byte comparison of the corresponding encodings. -/
theorem claim_C1 (kx ky kz : Bool) (p q : Point3d) :
    cmp_xyz p q = byteCompare (encode_xyz kx ky kz p) (encode_xyz kx ky kz q) ∧
      cmp_yzx p q = byteCompare (encode_yzx kx ky kz p) (encode_yzx kx ky kz q) ∧
      cmp_zxy p q = byteCompare (encode_zxy kx ky kz p) (encode_zxy kx ky kz q) :=
  ⟨encode_xyz_hom.symm, encode_yzx_hom.symm, encode_zxy_hom.symm⟩

/-- C2: on every finite input of (point, value, rank) triples with unique
points, the canonical construction `ControlNode::from_iter` succeeds and
produces a tree satisfying the §3 invariants — both as the structural
predicate `Valid` and as acceptance by the verifier
`assert_tree_invariants`. -/
theorem claim_C2 {V M : Type} (lift : Point3d × V → M) (combine : M → M → M)
    (l : List (Point3d × V × Nat))
    (_hunique : l.Pairwise (fun a b => a.1 ≠ b.1)) :
    ∃ t, ControlNode.from_iter lift combine l = some t ∧
      ControlNode.Valid t ∧ ControlNode.tree_invariants_ok t := by
  obtain ⟨t, hf, hv, _⟩ := ControlNode.from_iter_ok lift combine l
  obtain ⟨st, hst, _⟩ := ControlNode.do_assert_sound hv
  refine ⟨t, hf, hv, ?_⟩
  show (ControlNode.do_assert_tree_invariants t).isSome
  rw [hst]
  rfl

theorem claim_C2_witness :
    ([((⟨0, 0, 0⟩ : Point3d), (10 : Nat), (2 : Nat)), (⟨1, 0, 0⟩, 20, 1)].Pairwise
        (fun a b => a.1 ≠ b.1)) ∧
      ∃ t,
        ControlNode.from_iter (M := Nat) ControlNode.usize_lift
            ControlNode.usize_combine
            [((⟨0, 0, 0⟩ : Point3d), (10 : Nat), (2 : Nat)), (⟨1, 0, 0⟩, 20, 1)] =
          some t ∧
        ControlNode.Valid t ∧ ControlNode.tree_invariants_ok t :=
  ⟨by decide, claim_C2 ControlNode.usize_lift ControlNode.usize_combine _ (by decide)⟩

/-- C3 counterexample: the claim quantifies over arbitrary multisets, but
`from_iter` keeps the first occurrence of a duplicated point, so two
orderings of the same multiset of triples can build trees with different
per-vertex summaries (here under the commutative value-summing monoid:
summary 7 versus summary 9). -/
theorem claim_C3_counterexample :
    List.Perm
        [((⟨0, 0, 0⟩ : Point3d), (7 : Nat), (0 : Nat)), (⟨0, 0, 0⟩, 9, 0)]
        [((⟨0, 0, 0⟩ : Point3d), (9 : Nat), (0 : Nat)), (⟨0, 0, 0⟩, 7, 0)] ∧
      ControlNode.from_iter sum_lift ControlNode.usize_combine
          [((⟨0, 0, 0⟩ : Point3d), (7 : Nat), (0 : Nat)), (⟨0, 0, 0⟩, 9, 0)] =
        some (ControlNode.nonEmpty ⟨0, 0, 0⟩ 0 ControlNode.empty
          ControlNode.empty 7 1 7) ∧
      ControlNode.from_iter sum_lift ControlNode.usize_combine
          [((⟨0, 0, 0⟩ : Point3d), (9 : Nat), (0 : Nat)), (⟨0, 0, 0⟩, 7, 0)] =
        some (ControlNode.nonEmpty ⟨0, 0, 0⟩ 0 ControlNode.empty
          ControlNode.empty 9 1 9) ∧
      (7 : Nat) ≠ 9 := by
  exact ⟨by decide, by decide, by decide, by decide⟩

/-- C3 amended: on inputs whose points are pairwise distinct, building via
`from_iter` is invariant under any permutation of the input — the resulting
trees are identical (same shape, per-vertex values, counts and summaries). -/
theorem claim_C3 {V M : Type} (lift : Point3d × V → M) (combine : M → M → M)
    {l₁ l₂ : List (Point3d × V × Nat)}
    (hperm : List.Perm l₁ l₂)
    (hdist : l₁.Pairwise (fun a b => a.1 ≠ b.1)) :
    ControlNode.from_iter lift combine l₁ = ControlNode.from_iter lift combine l₂ :=
  ControlNode.from_iter_det lift combine hperm hdist

theorem claim_C3_witness :
    List.Perm
        [((⟨0, 0, 0⟩ : Point3d), (7 : Nat), (1 : Nat)), (⟨1, 1, 1⟩, 9, 2)]
        [((⟨1, 1, 1⟩ : Point3d), (9 : Nat), (2 : Nat)), (⟨0, 0, 0⟩, 7, 1)] ∧
      ([((⟨0, 0, 0⟩ : Point3d), (7 : Nat), (1 : Nat)), (⟨1, 1, 1⟩, 9, 2)].Pairwise
        (fun a b => a.1 ≠ b.1)) ∧
      ControlNode.from_iter (M := Nat) ControlNode.usize_lift
          ControlNode.usize_combine
          [((⟨0, 0, 0⟩ : Point3d), (7 : Nat), (1 : Nat)), (⟨1, 1, 1⟩, 9, 2)] =
        ControlNode.from_iter ControlNode.usize_lift ControlNode.usize_combine
          [((⟨1, 1, 1⟩ : Point3d), (9 : Nat), (2 : Nat)), (⟨0, 0, 0⟩, 7, 1)] :=
  ⟨by decide, by decide,
    claim_C3 ControlNode.usize_lift ControlNode.usize_combine (by decide) (by decide)⟩

/-- C4: decoding the bytes produced by encode returns exactly the original
value together with the length that encode returned — for both dimension
encodings and for points under each of the three orderings, in every
axis-kind mixture. -/
theorem claim_C4 (kx ky kz : Bool) {v : Nat} (hv : v ≤ 255) {p : Point3d}
    (hx : p.x ≤ 255) (hy : p.y ≤ 255) (hz : p.z ≤ 255) :
    fixed_homomorphic_decode (fixed_homomorphic_encode v) =
        DecResult.ok v (fixed_homomorphic_encode v).length ∧
      var_homomorphic_decode (var_homomorphic_encode v) =
        DecResult.ok v (var_homomorphic_encode v).length ∧
      decode_xyz kx ky kz (encode_xyz kx ky kz p) =
        DecResult.ok p (encode_xyz kx ky kz p).length ∧
      decode_yzx kx ky kz (encode_yzx kx ky kz p) =
        DecResult.ok p (encode_yzx kx ky kz p).length ∧
      decode_zxy kx ky kz (encode_zxy kx ky kz p) =
        DecResult.ok p (encode_zxy kx ky kz p).length := by
  refine ⟨rfl, ?_, decode_xyz_round hx hy hz, decode_yzx_round hx hy hz,
    decode_zxy_round hx hy hz⟩
  have h := var_decode_front hv []
  simpa [var_homomorphic_encode] using h

theorem claim_C4_witness :
    (2 : Nat) ≤ 255 ∧ (1 : Nat) ≤ 255 ∧ (2 : Nat) ≤ 255 ∧ (3 : Nat) ≤ 255 ∧
      (fixed_homomorphic_decode (fixed_homomorphic_encode 2) =
          DecResult.ok 2 (fixed_homomorphic_encode 2).length ∧
        var_homomorphic_decode (var_homomorphic_encode 2) =
          DecResult.ok 2 (var_homomorphic_encode 2).length ∧
        decode_xyz true false true
            (encode_xyz true false true (⟨1, 2, 3⟩ : Point3d)) =
          DecResult.ok ⟨1, 2, 3⟩
            (encode_xyz true false true (⟨1, 2, 3⟩ : Point3d)).length ∧
        decode_yzx true false true
            (encode_yzx true false true (⟨1, 2, 3⟩ : Point3d)) =
          DecResult.ok ⟨1, 2, 3⟩
            (encode_yzx true false true (⟨1, 2, 3⟩ : Point3d)).length ∧
        decode_zxy true false true
            (encode_zxy true false true (⟨1, 2, 3⟩ : Point3d)) =
          DecResult.ok ⟨1, 2, 3⟩
            (encode_zxy true false true (⟨1, 2, 3⟩ : Point3d)).length) :=
  ⟨by decide, by decide, by decide, by decide,
    claim_C4 true false true (by decide) (by decide) (by decide) (by decide)⟩

/-- C5: for trees built by the canonical construction from unique-point
triples under the counting monoid (`usize`: lift 1, combine +, neutral 0),
every vertex count equals the number of pairs in its subtree and equals
one plus the counts of its children, the summary at every vertex equals
its count, and the root count and summary equal the input size. -/
theorem claim_C5 {V : Type} {l : List (Point3d × V × Nat)}
    {t : ControlNode V Nat}
    (hunique : l.Pairwise (fun a b => a.1 ≠ b.1))
    (hbuild : ControlNode.from_iter ControlNode.usize_lift
        ControlNode.usize_combine l = some t) :
    (∀ (k : Point3d) (r : Nat) (cl crt : ControlNode V Nat) (cv : V)
        (cc cs : Nat),
      ControlNode.SubtreeOf (ControlNode.nonEmpty k r cl crt cv cc cs) t →
        cc = (ControlNode.nodes
            (ControlNode.nonEmpty k r cl crt cv cc cs)).length ∧
          cc = 1 + ControlNode.countOf cl + ControlNode.countOf crt ∧
          cs = cc) ∧
      ControlNode.countOf t = l.length ∧
      ControlNode.summaryOf t = l.length := by
  obtain ⟨hok, hsz⟩ := ControlNode.from_iter_counting hunique hbuild
  refine ⟨?_, ?_, ?_⟩
  · intro k r cl crt cv cc cs hsub
    have hs := ControlNode.counting_subtree hsub hok
    obtain ⟨hc, hsum, hocl, hocr⟩ := hs
    refine ⟨?_, ?_, hsum⟩
    · rw [hc, ← ControlNode.treeSize_eq_nodes_length, ControlNode.treeSize]
    · rw [hc, countOf_eq_treeSize hocl, countOf_eq_treeSize hocr]
  · rw [countOf_eq_treeSize hok, hsz]
  · rw [summaryOf_eq_countOf hok, countOf_eq_treeSize hok, hsz]

theorem claim_C5_witness :
    ([((⟨0, 0, 0⟩ : Point3d), (10 : Nat), (2 : Nat)), (⟨1, 0, 0⟩, 20, 1)].Pairwise
        (fun a b => a.1 ≠ b.1)) ∧
      ControlNode.from_iter ControlNode.usize_lift ControlNode.usize_combine
          [((⟨0, 0, 0⟩ : Point3d), (10 : Nat), (2 : Nat)), (⟨1, 0, 0⟩, 20, 1)] =
        some (ControlNode.nonEmpty ⟨0, 0, 0⟩ 2 ControlNode.empty
          (ControlNode.nonEmpty ⟨1, 0, 0⟩ 1 ControlNode.empty
            ControlNode.empty 20 1 1) 10 2 2) ∧
      ((∀ (k : Point3d) (r : Nat)
          (cl crt : ControlNode Nat Nat) (cv : Nat) (cc cs : Nat),
        ControlNode.SubtreeOf (ControlNode.nonEmpty k r cl crt cv cc cs)
            (ControlNode.nonEmpty ⟨0, 0, 0⟩ 2 ControlNode.empty
              (ControlNode.nonEmpty ⟨1, 0, 0⟩ 1 ControlNode.empty
                ControlNode.empty 20 1 1) 10 2 2) →
          cc = (ControlNode.nodes
              (ControlNode.nonEmpty k r cl crt cv cc cs)).length ∧
            cc = 1 + ControlNode.countOf cl + ControlNode.countOf crt ∧
            cs = cc) ∧
        ControlNode.countOf (ControlNode.nonEmpty (⟨0, 0, 0⟩ : Point3d) 2
            ControlNode.empty
            (ControlNode.nonEmpty ⟨1, 0, 0⟩ 1 ControlNode.empty
              ControlNode.empty 20 1 1) 10 2 2) =
          [((⟨0, 0, 0⟩ : Point3d), (10 : Nat), (2 : Nat)),
            (⟨1, 0, 0⟩, 20, 1)].length ∧
        ControlNode.summaryOf (ControlNode.nonEmpty (⟨0, 0, 0⟩ : Point3d) 2
            ControlNode.empty
            (ControlNode.nonEmpty ⟨1, 0, 0⟩ 1 ControlNode.empty
              ControlNode.empty 20 1 1) 10 2 2) =
          [((⟨0, 0, 0⟩ : Point3d), (10 : Nat), (2 : Nat)),
            (⟨1, 0, 0⟩, 20, 1)].length) :=
  ⟨by decide, by decide, claim_C5 (by decide) (by decide)⟩

/-- C6 counterexample: a two-vertex tree that the verifier accepts and the
§3 invariants hold for (root `(1,0,0)` with rank 2, left child `(0,1,0)`
with rank 1 — built by the canonical construction itself), on which the
left-child predecessor query of §4.5 returns nothing at all: the query key
uses the yzx ordering selected by the child rank 1, under which the child
point sorts above the parent point, so the child entry `[1,1,0,0]` lies
above the query key `[1,0,0,1]` instead of below it. -/
theorem claim_C6_counterexample :
    ControlNode.Valid
        (ControlNode.nonEmpty (⟨1, 0, 0⟩ : Point3d) 2
          (ControlNode.nonEmpty ⟨0, 1, 0⟩ 1 ControlNode.empty
            ControlNode.empty (0 : Nat) 1 (1 : Nat))
          ControlNode.empty 0 2 2) ∧
      ControlNode.tree_invariants_ok
        (ControlNode.nonEmpty (⟨1, 0, 0⟩ : Point3d) 2
          (ControlNode.nonEmpty ⟨0, 1, 0⟩ 1 ControlNode.empty
            ControlNode.empty (0 : Nat) 1 (1 : Nat))
          ControlNode.empty 0 2 2) ∧
      ControlNode.from_iter (M := Nat) ControlNode.usize_lift
          ControlNode.usize_combine
          [((⟨1, 0, 0⟩ : Point3d), (0 : Nat), (2 : Nat)), (⟨0, 1, 0⟩, 0, 1)] =
        some (ControlNode.nonEmpty (⟨1, 0, 0⟩ : Point3d) 2
          (ControlNode.nonEmpty ⟨0, 1, 0⟩ 1 ControlNode.empty
            ControlNode.empty (0 : Nat) 1 (1 : Nat))
          ControlNode.empty 0 2 2) ∧
      kv_key true true true 1 (⟨0, 1, 0⟩ : Point3d) ∈
        storeOf true true true
          (ControlNode.nonEmpty (⟨1, 0, 0⟩ : Point3d) 2
            (ControlNode.nonEmpty ⟨0, 1, 0⟩ 1 ControlNode.empty
              ControlNode.empty (0 : Nat) 1 (1 : Nat))
            ControlNode.empty 0 2 2) ∧
      find_lt
          (storeOf true true true
            (ControlNode.nonEmpty (⟨1, 0, 0⟩ : Point3d) 2
              (ControlNode.nonEmpty ⟨0, 1, 0⟩ 1 ControlNode.empty
                ControlNode.empty (0 : Nat) 1 (1 : Nat))
              ControlNode.empty 0 2 2))
          (kv_key true true true 1 (⟨1, 0, 0⟩ : Point3d)) = none :=
  ⟨validb_iff.mp (by decide), by decide, by decide, by decide, by decide⟩

/-- C6 amended: the child-lookup procedure of §4.5 returns exactly the
child entry, provided the tree additionally has pairwise distinct vertex
ranks, all congruent modulo 3 (a single shared separating ordering), and
byte-representable ranks — for every vertex and both children, over every
axis-kind mixture of the two concrete dimension encodings. -/
theorem claim_C6 (kx ky kz : Bool) {V M : Type} {t : ControlNode V M}
    (hv : ControlNode.Valid t)
    (hranks : (ControlNode.nodes t).Pairwise (fun a b => a.2 ≠ b.2))
    (hmod : ∀ a ∈ ControlNode.nodes t, ∀ b ∈ ControlNode.nodes t,
      a.2 % 3 = b.2 % 3)
    (hbyte : ∀ a ∈ ControlNode.nodes t, a.2 < 256)
    {k : Point3d} {r : Nat} {l rt : ControlNode V M} {v : V} {c : Nat} {sm : M}
    (hsub : ControlNode.SubtreeOf (ControlNode.nonEmpty k r l rt v c sm) t) :
    (∀ ck cr cl crt cv cc csm,
        l = ControlNode.nonEmpty ck cr cl crt cv cc csm →
        find_lt (storeOf kx ky kz t) (kv_key kx ky kz cr k) =
          some (kv_key kx ky kz cr ck)) ∧
    (∀ ck cr cl crt cv cc csm,
        rt = ControlNode.nonEmpty ck cr cl crt cv cc csm →
        find_gt (storeOf kx ky kz t) (kv_key kx ky kz cr k) =
          some (kv_key kx ky kz cr ck)) :=
  kv_child_lookup kx ky kz hv hranks hmod hbyte hsub

theorem claim_C6_witness :
    ControlNode.Valid
        (ControlNode.nonEmpty (⟨1, 0, 0⟩ : Point3d) 5
          (ControlNode.nonEmpty ⟨0, 0, 0⟩ 2 ControlNode.empty
            ControlNode.empty (0 : Nat) 1 (1 : Nat))
          ControlNode.empty 0 2 2) ∧
      ((ControlNode.nodes
          (ControlNode.nonEmpty (⟨1, 0, 0⟩ : Point3d) 5
            (ControlNode.nonEmpty ⟨0, 0, 0⟩ 2 ControlNode.empty
              ControlNode.empty (0 : Nat) 1 (1 : Nat))
            ControlNode.empty 0 2 2)).Pairwise (fun a b => a.2 ≠ b.2)) ∧
      (∀ a ∈ ControlNode.nodes
          (ControlNode.nonEmpty (⟨1, 0, 0⟩ : Point3d) 5
            (ControlNode.nonEmpty ⟨0, 0, 0⟩ 2 ControlNode.empty
              ControlNode.empty (0 : Nat) 1 (1 : Nat))
            ControlNode.empty 0 2 2),
        ∀ b ∈ ControlNode.nodes
          (ControlNode.nonEmpty (⟨1, 0, 0⟩ : Point3d) 5
            (ControlNode.nonEmpty ⟨0, 0, 0⟩ 2 ControlNode.empty
              ControlNode.empty (0 : Nat) 1 (1 : Nat))
            ControlNode.empty 0 2 2), a.2 % 3 = b.2 % 3) ∧
      (∀ a ∈ ControlNode.nodes
          (ControlNode.nonEmpty (⟨1, 0, 0⟩ : Point3d) 5
            (ControlNode.nonEmpty ⟨0, 0, 0⟩ 2 ControlNode.empty
              ControlNode.empty (0 : Nat) 1 (1 : Nat))
            ControlNode.empty 0 2 2), a.2 < 256) ∧
      ControlNode.SubtreeOf
        (ControlNode.nonEmpty (⟨1, 0, 0⟩ : Point3d) 5
          (ControlNode.nonEmpty ⟨0, 0, 0⟩ 2 ControlNode.empty
            ControlNode.empty (0 : Nat) 1 (1 : Nat))
          ControlNode.empty 0 2 2)
        (ControlNode.nonEmpty (⟨1, 0, 0⟩ : Point3d) 5
          (ControlNode.nonEmpty ⟨0, 0, 0⟩ 2 ControlNode.empty
            ControlNode.empty (0 : Nat) 1 (1 : Nat))
          ControlNode.empty 0 2 2) ∧
      ((∀ ck cr cl crt cv cc csm,
          ControlNode.nonEmpty (⟨0, 0, 0⟩ : Point3d) 2 ControlNode.empty
              ControlNode.empty (0 : Nat) 1 (1 : Nat) =
            ControlNode.nonEmpty ck cr cl crt cv cc csm →
          find_lt
              (storeOf true true true
                (ControlNode.nonEmpty (⟨1, 0, 0⟩ : Point3d) 5
                  (ControlNode.nonEmpty ⟨0, 0, 0⟩ 2 ControlNode.empty
                    ControlNode.empty (0 : Nat) 1 (1 : Nat))
                  ControlNode.empty 0 2 2))
              (kv_key true true true cr ⟨1, 0, 0⟩) =
            some (kv_key true true true cr ck)) ∧
        (∀ ck cr cl crt cv cc csm,
          (ControlNode.empty : ControlNode Nat Nat) =
            ControlNode.nonEmpty ck cr cl crt cv cc csm →
          find_gt
              (storeOf true true true
                (ControlNode.nonEmpty (⟨1, 0, 0⟩ : Point3d) 5
                  (ControlNode.nonEmpty ⟨0, 0, 0⟩ 2 ControlNode.empty
                    ControlNode.empty (0 : Nat) 1 (1 : Nat))
                  ControlNode.empty 0 2 2))
              (kv_key true true true cr ⟨1, 0, 0⟩) =
            some (kv_key true true true cr ck))) :=
  ⟨validb_iff.mp (by decide), by decide, by decide, by decide,
    ControlNode.SubtreeOf.refl _,
    claim_C6 true true true (validb_iff.mp (by decide)) (by decide) (by decide)
      (by decide) (ControlNode.SubtreeOf.refl _)⟩

/-- C7: evaluation of the decoders at truncated inputs. The variable-width
decoder indexes `buf[i]` without a bounds check and panics (index out of
bounds) on the empty slice and on an unterminated run, and the point
decoders panic reading a delimiter past the end of the buffer — instead of
returning the recoverable `Err` the claim (and spec §7) requires. The
fixed-width decoder, by contrast, checks emptiness and returns `Err`. -/
theorem claim_C7 :
    var_homomorphic_decode ([] : List Nat) = DecResult.crash ∧
      var_homomorphic_decode [2] = DecResult.crash ∧
      decode_xyz false true true [1] = DecResult.crash ∧
      fixed_homomorphic_decode ([] : List Nat) = DecResult.err := by
  exact ⟨rfl, rfl, by decide, rfl⟩

set_option maxRecDepth 4000 in
/-- C8: evaluation of the variable-width decoder at the boundary input of
256 `0x02` bytes followed by `0x01`. The bound check `i >= 256` fires only
on a non-terminator byte, so this input is accepted and `i as u8` wraps to
0: the decoder returns `Ok((0, 257))` rather than the decode error the
claim requires — even though 0 encodes as the single byte `0x01`, and a
run of 257 `0x02` bytes is (correctly) rejected. -/
theorem claim_C8 :
    var_homomorphic_decode (List.replicate 256 2 ++ [1]) =
        DecResult.ok 0 257 ∧
      var_homomorphic_encode 0 = [1] ∧
      var_homomorphic_decode (List.replicate 257 2 ++ [1]) = DecResult.err := by
  exact ⟨by decide, rfl, by decide⟩

/-- C9 counterexample: an input with a duplicated point on which
`from_iter` succeeds silently — returning the tree of the first
occurrence — rather than failing fatally: duplicates are removed before
sorting, so the duplicate-point panic of `insert_no_balance` is not
reached. -/
theorem claim_C9_counterexample :
    ControlNode.from_iter ControlNode.usize_lift ControlNode.usize_combine
        [((⟨0, 0, 0⟩ : Point3d), (7 : Nat), (0 : Nat)), (⟨0, 0, 0⟩, 9, 5)] =
      some (ControlNode.nonEmpty ⟨0, 0, 0⟩ 0 ControlNode.empty
        ControlNode.empty 7 1 1) := by
  decide

/-- C9 amended: only direct insertion via `insert_no_balance` of a point
already present in a (valid) tree fails fatally — the descent reaches the
`Ordering::Equal` panic; `from_iter` itself silently drops all but the
first occurrence of each point and never panics. -/
theorem claim_C9 {V M : Type} (lift : Point3d × V → M) (combine : M → M → M)
    {t : ControlNode V M} {p : Point3d} {v : V} {r rp : Nat}
    (hval : ControlNode.Valid t) (hmem : (p, rp) ∈ ControlNode.nodes t) :
    ControlNode.insert_no_balance lift combine t p v r = none :=
  ControlNode.insert_duplicate_panics lift combine hval hmem

theorem claim_C9_witness :
    ControlNode.Valid
        (ControlNode.nonEmpty (⟨0, 0, 0⟩ : Point3d) 0 ControlNode.empty
          ControlNode.empty (7 : Nat) 1 (1 : Nat)) ∧
      ((⟨0, 0, 0⟩ : Point3d), (0 : Nat)) ∈
        ControlNode.nodes
          (ControlNode.nonEmpty (⟨0, 0, 0⟩ : Point3d) 0 ControlNode.empty
            ControlNode.empty (7 : Nat) 1 (1 : Nat)) ∧
      ControlNode.insert_no_balance ControlNode.usize_lift
          ControlNode.usize_combine
          (ControlNode.nonEmpty (⟨0, 0, 0⟩ : Point3d) 0 ControlNode.empty
            ControlNode.empty (7 : Nat) 1 (1 : Nat)) ⟨0, 0, 0⟩ 9 5 = none :=
  ⟨validb_iff.mp (by decide), by decide,
    claim_C9 ControlNode.usize_lift ControlNode.usize_combine
      (validb_iff.mp (by decide))
      (show ((⟨0, 0, 0⟩ : Point3d), (0 : Nat)) ∈
          ControlNode.nodes
            (ControlNode.nonEmpty (⟨0, 0, 0⟩ : Point3d) 0 ControlNode.empty
              ControlNode.empty (7 : Nat) 1 (1 : Nat)) by decide)⟩

/-- C10: `from_iter` never reaches the duplicate-point panic of
`insert_no_balance` on any input: it always returns a tree; before sorting
it removes all but the first occurrence of each point — the retained triple
for every kept element is exactly the first input element carrying its
point, and every input point is represented. -/
theorem claim_C10 {V M : Type} (lift : Point3d × V → M) (combine : M → M → M)
    (l : List (Point3d × V × Nat)) :
    (∃ t, ControlNode.from_iter lift combine l = some t) ∧
      (∀ x ∈ ControlNode.retain_unique [] l,
        List.find? (fun b => decide (b.1 = x.1)) l = some x) ∧
      (∀ y ∈ l, ∃ x ∈ ControlNode.retain_unique [] l, x.1 = y.1) := by
  refine ⟨?_, ControlNode.retain_unique_first l [], ?_⟩
  · obtain ⟨t, h, _⟩ := ControlNode.from_iter_ok lift combine l
    exact ⟨t, h⟩
  · intro y hy
    rcases ControlNode.retain_unique_covers l [] y hy with h | h
    · cases h
    · exact h

end KV3d
